import Mathlib

/-!
Shallow embedding of the core of the libreguitar repository (a guitar
fretboard trainer written in Rust) and proofs about the behaviour its
specification claims.

Conventions used throughout:
* Rust `f64` values (frequencies, spectra, audio samples) are modelled as
  exact rationals `ℚ`; the claims under study are about the algorithmic
  structure of the code, not about floating-point rounding.
* Rust `usize` indices are `ℕ`, Rust `i32` is `ℤ`.
* Rust slices and `Vec`s are Lean `List`s; `Vec::sort_unstable_by` on a
  key is modelled by `List.insertionSort` on the same key (deterministic;
  for the concrete inputs appearing in counterexamples below the two
  agree, since Rust's unstable sort uses an insertion sort on such short
  slices and does not exchange already-ordered ties).
* Fallible Rust functions return `Option`/`Except`.

Each embedded definition is named after the Rust item it translates
(module path given in its doc comment).
-/

namespace LibreGuitar

/-- The twelve pitch classes, `core/note_name.rs` (`enum NoteName`). -/
inductive NoteName where
  | A | ASharp | B | C | CSharp | D | DSharp | E | F | FSharp | G | GSharp
deriving DecidableEq, Repr

/-- A pitch, `core/note.rs` (`struct Note`): octave, pitch-class name and a
reference frequency in Hz.  Rust `octave : i32` is `ℤ`, `frequency : f64`
is `ℚ`. -/
structure Note where
  octave : ℤ
  name : NoteName
  frequency : ℚ
deriving DecidableEq, Repr

/-- Rust `impl PartialEq for Note` (`core/note.rs`): equality on
`(octave, name)` only; the frequency is ignored. -/
def noteEq (a b : Note) : Bool :=
  a.octave == b.octave && a.name == b.name

/-- The identity key of a note, the pair Rust code compares and hashes
(`(note.octave, note.name)`). -/
def noteKey (n : Note) : ℤ × NoteName :=
  (n.octave, n.name)

/-- Position of a pitch class inside an octave, `core/note.rs`
(`fn pos_in_octave`). -/
def pos_in_octave (name : NoteName) : ℕ :=
  match name with
  | .C => 0 | .CSharp => 1 | .D => 2 | .DSharp => 3
  | .E => 4 | .F => 5 | .FSharp => 6 | .G => 7
  | .GSharp => 8 | .A => 9 | .ASharp => 10 | .B => 11

/-- Inverse of `pos_in_octave`, `core/note.rs` (`fn name_in_octave`);
positions ≥ 12 cannot occur at the call site, any such argument is mapped
to `B` (the Rust code panics there). -/
def name_in_octave (pos : ℕ) : NoteName :=
  match pos with
  | 0 => .C | 1 => .CSharp | 2 => .D | 3 => .DSharp
  | 4 => .E | 5 => .F | 6 => .FSharp | 7 => .G
  | 8 => .GSharp | 9 => .A | 10 => .ASharp | _ => .B

/-- Semitone transposition, `core/note.rs` (`Note::add_semitone`).  Rust
`/` and `%` on `i32` truncate toward zero, hence `Int.tdiv`/`Int.tmod`;
`rem_euclid` is `Int.emod`.  The source sets the resulting frequency to
`f64::NAN`, a value that is never read afterwards (lookups use only the
`(octave, name)` identity); it is modelled as `0`. -/
def add_semitone (note : Note) (semitones : ℤ) : Note :=
  let pos : ℤ := (pos_in_octave note.name : ℕ)
  let new_pos := pos + semitones
  let octave_offset :=
    Int.tdiv new_pos 12 -
      (if new_pos < 0 ∧ Int.tmod new_pos 12 ≠ 0 then 1 else 0)
  let octave := note.octave + octave_offset
  let new_pos' := (Int.emod new_pos 12).toNat
  { octave := octave, name := name_in_octave new_pos', frequency := 0 }

/-- A fretboard coordinate.  Modelled from the spec: the file
`core/fret_loc.rs` declared by `core.rs` is not part of the sources at
hand; the spec describes `FretLoc` as "(string_idx, fret_idx), a plain
value used as a map key". -/
structure FretLoc where
  string_idx : ℕ
  fret_idx : ℕ
deriving DecidableEq, Repr

/-- Prefix sum `cumsum[i] = signal[0] + ... + signal[i]` of
`audio_analysis/algorithm.rs` (`moving_avg` builds this array by a
left-to-right loop). -/
def psum (signal : List ℚ) (i : ℕ) : ℚ :=
  (signal.take (i + 1)).sum

/-- Centered moving average, `audio_analysis/algorithm.rs` (`fn
moving_avg`).  The source mutates `signal` in place (reading only the
prefix-sum array), which is the map below; the source's
`assert!(window_size > 0)` restricts callers to `window_size ≥ 1`. -/
def moving_avg (signal : List ℚ) (window_size : ℕ) : List ℚ :=
  if signal.isEmpty ∨ window_size = 1 then signal
  else
    let n := signal.length
    let left_offset := window_size / 2
    let right_offset := window_size - 1 - left_offset
    (List.range n).map (fun i =>
      let right := min (n - 1) (i + right_offset)
      if left_offset < i then
        (psum signal right - psum signal (i - left_offset - 1)) / window_size
      else
        psum signal right / (right + 1))

/-- Moving average as the spec's words describe it (the comparison point
for the refinement claim about `moving_avg`): each index becomes the mean
of the samples of its centered window clipped to the array, dividing by
the number of samples actually available. -/
def claimedMovingAvg (signal : List ℚ) (window_size : ℕ) : List ℚ :=
  let n := signal.length
  let left_offset := window_size / 2
  let right_offset := window_size - 1 - left_offset
  (List.range n).map (fun i =>
    let lo := i - left_offset
    let hi := min (n - 1) (i + right_offset)
    let cnt := hi + 1 - lo
    ((signal.drop lo).take cnt).sum / cnt)

/-- A detected spectrum peak, `audio_analysis/algorithm.rs`
(`struct Peak`): bin index and magnitude. -/
structure Peak where
  idx : ℕ
  value : ℚ
deriving DecidableEq, Repr

/-- The scan loop of `find_peaks` (`for i in 0..n_samples` in
`audio_analysis/algorithm.rs`), accumulating retained peaks in `out`.
The loop counter is the remaining iteration count (`fuel`), started at
`signal.length` with `i = 0`, so the loop runs exactly over
`i ∈ [0, n_samples)` like the source. -/
def fpLoop (signal : List ℚ) (mh : ℚ) (mpd : ℕ) :
    ℕ → ℕ → List Peak → List Peak
  | 0, _, out => out
  | fuel + 1, i, out =>
    let n := signal.length
    let v := signal.getD i 0
    let greater_than_left := i = 0 ∨ signal.getD (i - 1) 0 < v
    let greater_than_right := i = n - 1 ∨ signal.getD (i + 1) 0 < v
    let is_peak := greater_than_left ∧ greater_than_right ∧ mh ≤ v
    let is_far_apart := out = [] ∨ mpd ≤ i - (out.getLast?.getD ⟨0, 0⟩).idx
    fpLoop signal mh mpd fuel (i + 1)
      (if is_peak ∧ is_far_apart then out ++ [⟨i, v⟩] else out)

/-- Peak detection, `audio_analysis/algorithm.rs` (`fn find_peaks`):
an empty signal yields no peak, a one-sample signal yields its only bin
unconditionally, otherwise the left-to-right greedy scan `fpLoop`. -/
def find_peaks (signal : List ℚ) (min_height : Option ℚ)
    (min_peak_dist : Option ℕ) : List Peak :=
  match signal with
  | [] => []
  | [x] => [⟨0, x⟩]
  | _ =>
    fpLoop signal (min_height.getD 0) (min_peak_dist.getD 0) signal.length 0 []

/-- What the spec calls a peak of the signal: an in-range bin carrying its
own magnitude, at least `mh` high, strictly above each existing
neighbor. -/
def IsRealPeak (signal : List ℚ) (mh : ℚ) (p : Peak) : Prop :=
  p.idx < signal.length ∧ p.value = signal.getD p.idx 0 ∧ mh ≤ p.value ∧
    (p.idx = 0 ∨ signal.getD (p.idx - 1) 0 < p.value) ∧
    (p.idx = signal.length - 1 ∨ signal.getD (p.idx + 1) 0 < p.value)

lemma sum_take_sub (l : List ℚ) (a b : ℕ) (hab : a ≤ b) :
    (l.take b).sum - (l.take a).sum = ((l.drop a).take (b - a)).sum := by
  have h : l.take b = l.take a ++ (l.drop a).take (b - a) := by
    have := List.take_add l a (b - a)
    rwa [Nat.add_sub_cancel' hab] at this
  rw [h, List.sum_append]
  ring

lemma sum_take_one_drop (l : List ℚ) (i : ℕ) (hi : i < l.length) :
    ((l.drop i).take 1).sum = l.getD i 0 := by
  rw [List.drop_eq_getElem_cons hi, List.take_succ_cons, List.take_zero,
    List.sum_cons, List.sum_nil, List.getD_eq_getElem l 0 hi, add_zero]

lemma moving_avg_length (signal : List ℚ) (w : ℕ) :
    (moving_avg signal w).length = signal.length := by
  unfold moving_avg
  split
  · rfl
  · simp

lemma moving_avg_getD (signal : List ℚ) (w : ℕ) (hw : 1 ≤ w) (i : ℕ)
    (hi : i < signal.length) :
    (moving_avg signal w).getD i 0 =
      (if w / 2 < i then
        ((signal.drop (i - w / 2)).take
            (min (signal.length - 1) (i + (w - 1 - w / 2)) - (i - w / 2) + 1)).sum
          / w
      else
        (signal.take (min (signal.length - 1) (i + (w - 1 - w / 2)) + 1)).sum /
          (min (signal.length - 1) (i + (w - 1 - w / 2)) + 1)) := by
  have hne : ¬ signal.isEmpty := by
    cases signal with
    | nil => simp at hi
    | cons a l => simp
  rcases eq_or_lt_of_le hw with hw1 | hw2
  · -- window size 1: the source returns the signal unchanged, and the
    -- windowed-mean formula is the identity as well
    subst hw1
    have hlo : (1 : ℕ) / 2 = 0 := rfl
    have hro : (1 : ℕ) - 1 - 1 / 2 = 0 := rfl
    rw [moving_avg]
    rw [if_pos (Or.inr rfl)]
    rw [hlo, hro]
    have hmin : min (signal.length - 1) (i + 0) = i := by omega
    rw [hmin]
    by_cases h0 : 0 < i
    · rw [if_pos h0]
      have : i - 0 = i := by omega
      rw [this]
      have : i - i + 1 = 1 := by omega
      rw [this, sum_take_one_drop signal i hi]
      rw [List.getD_eq_getElem signal 0 hi]
      norm_num
    · have hi0 : i = 0 := by omega
      subst hi0
      rw [if_neg h0]
      simp [List.take_one]
      cases signal with
      | nil => simp at hi
      | cons a l => simp [List.getD]
  · -- window size ≥ 2
    have hcond : ¬ (signal.isEmpty ∨ w = 1) := by
      push_neg
      exact ⟨hne, by omega⟩
    rw [moving_avg, if_neg hcond]
    have hlen : ((List.range signal.length).map (fun i =>
        let right := min (signal.length - 1) (i + (w - 1 - w / 2))
        if w / 2 < i then
          (psum signal right - psum signal (i - w / 2 - 1)) / w
        else
          psum signal right / (right + 1))).length = signal.length := by simp
    rw [List.getD_eq_getElem _ 0 (by rw [hlen]; exact hi)]
    rw [List.getElem_map, List.getElem_range]
    set right := min (signal.length - 1) (i + (w - 1 - w / 2)) with hright
    have hir : i - w / 2 ≤ right := by omega
    by_cases hlo : w / 2 < i
    · rw [if_pos hlo, if_pos hlo]
      have ha : i - w / 2 - 1 + 1 = i - w / 2 := by omega
      unfold psum
      rw [ha]
      rw [sum_take_sub signal (i - w / 2) (right + 1) (by omega)]
      have : right + 1 - (i - w / 2) = right - (i - w / 2) + 1 := by omega
      rw [this]
    · rw [if_neg hlo, if_neg hlo]
      unfold psum
      norm_num

/-- C2, counterexample.  On `[1,2,3]` with window 3, the last bin's window
is clipped to the two samples `[2,3]`, yet `moving_avg` divides their sum
by the full window size 3 (its own unit test expects `2.5/3` in the
analogous case), while the claimed everywhere-truncating mean divides by
2; so `moving_avg` is not the claimed clipped-window mean. -/
theorem audio_c2_moving_avg_counterexample :
    moving_avg [1, 2, 3] 3 ≠ claimedMovingAvg [1, 2, 3] 3 ∧
    moving_avg [1, 2, 3] 3 = [3/2, 2, 5/3] ∧
    claimedMovingAvg [1, 2, 3] 3 = [3/2, 2, 5/2] := by
  refine ⟨?_, ?_, ?_⟩ <;>
    norm_num [moving_avg, claimedMovingAvg, psum, List.range_succ]

/-- C2, amended.  For every signal and window size `W ≥ 1`, `moving_avg`
preserves the length, is the identity for `W = 1`, is a no-op on empty
input and maps `[1,2,3,4]` with `W = 2` to `[1,1.5,2.5,3.5]`; each index
`i` becomes the sum of its centered window clipped to the array, divided
by the actually available sample count when `i ≤ W/2` (left edge) but
always by `W` when `i > W/2`, even if the window is clipped at the right
edge. -/
theorem audio_c2_moving_avg_amended (signal : List ℚ) (w : ℕ) (hw : 1 ≤ w) :
    (moving_avg signal w).length = signal.length ∧
    moving_avg signal 1 = signal ∧
    moving_avg [] w = [] ∧
    (∀ i, i < signal.length →
      (moving_avg signal w).getD i 0 =
        (if w / 2 < i then
          ((signal.drop (i - w / 2)).take
              (min (signal.length - 1) (i + (w - 1 - w / 2)) - (i - w / 2)
                + 1)).sum / w
        else
          (signal.take (min (signal.length - 1) (i + (w - 1 - w / 2)) + 1)).sum
            / (min (signal.length - 1) (i + (w - 1 - w / 2)) + 1))) ∧
    moving_avg [1, 2, 3, 4] 2 = [1, 3/2, 5/2, 7/2] := by
  refine ⟨moving_avg_length signal w, ?_, ?_, ?_, ?_⟩
  · unfold moving_avg
    simp
  · unfold moving_avg
    simp
  · exact fun i hi => moving_avg_getD signal w hw i hi
  · norm_num [moving_avg, psum, List.range_succ]

/-- C2, witness: the amended theorem applied to signal `[1,2,3,4]` and
window 2, evaluating bin 1 to `3/2`. -/
theorem audio_c2_moving_avg_witness :
    1 ≤ 2 ∧ (moving_avg [1, 2, 3, 4] 2).getD 1 0 = 3/2 := by
  refine ⟨by norm_num, ?_⟩
  have h := (audio_c2_moving_avg_amended [1, 2, 3, 4] 2 (by norm_num)).2.2.2.1
    1 (by norm_num)
  rw [h]
  norm_num

lemma fpLoop_spec (signal : List ℚ) (mh : ℚ) (mpd : ℕ) :
    ∀ fuel i out, fuel + i = signal.length →
    (∀ p ∈ out, IsRealPeak signal mh p ∧ p.idx < i) →
    List.Chain' (fun p q => p.idx < q.idx ∧ mpd ≤ q.idx - p.idx) out →
    (∀ p ∈ fpLoop signal mh mpd fuel i out, IsRealPeak signal mh p) ∧
      List.Chain' (fun p q => p.idx < q.idx ∧ mpd ≤ q.idx - p.idx)
        (fpLoop signal mh mpd fuel i out) := by
  intro fuel
  induction fuel with
  | zero =>
    intro i out _hk hout hchain
    exact ⟨fun p hp => (hout p hp).1, hchain⟩
  | succ k ih =>
    intro i out hk hout hchain
    have hi : i < signal.length := by omega
    rw [fpLoop]
    set v := signal.getD i 0 with hv
    by_cases hcond : ((i = 0 ∨ signal.getD (i - 1) 0 < v) ∧
        (i = signal.length - 1 ∨ signal.getD (i + 1) 0 < v) ∧ mh ≤ v) ∧
        (out = [] ∨ mpd ≤ i - (out.getLast?.getD ⟨0, 0⟩).idx)
    · rw [if_pos hcond]
      refine ih (i + 1) (out ++ [⟨i, v⟩]) (by omega) ?_ ?_
      · intro p hp
        rcases List.mem_append.mp hp with hp | hp
        · exact ⟨(hout p hp).1, by have := (hout p hp).2; omega⟩
        · have hpe : p = ⟨i, v⟩ := by simpa using hp
          subst hpe
          exact ⟨⟨hi, rfl, hcond.1.2.2, hcond.1.1, hcond.1.2.1⟩,
            Nat.lt_succ_self i⟩
      · rw [List.chain'_append]
        refine ⟨hchain, List.chain'_singleton _, ?_⟩
        intro x hx y hy
        have hyv : y = ⟨i, v⟩ := by
          have h1 : (⟨i, v⟩ : Peak) = y := by simpa using hy
          exact h1.symm
        subst hyv
        have hxlast : out.getLast? = some x := Option.mem_def.mp hx
        obtain ⟨hne', hxeq⟩ := List.mem_getLast?_eq_getLast hx
        have hxmem : x ∈ out := hxeq ▸ List.getLast_mem hne'
        have hxi : x.idx < i := (hout x hxmem).2
        rcases hcond.2 with hnil | hfar
        · subst hnil
          simp at hxlast
        · have hg : (out.getLast?.getD ⟨0, 0⟩) = x := by
            rw [hxlast]
            rfl
          rw [hg] at hfar
          exact ⟨hxi, hfar⟩
    · rw [if_neg hcond]
      exact ih (i + 1) out (by omega)
        (fun p hp => ⟨(hout p hp).1, by have := (hout p hp).2; omega⟩) hchain

/-- C3, counterexample.  `find_peaks` returns the only bin of a
one-sample signal unconditionally, so on signal `[0]` with
`min_height = 1` it returns a peak of magnitude `0 < 1`, contradicting
the claim that every returned peak has magnitude ≥ `min_height`. -/
theorem audio_c3_find_peaks_counterexample :
    find_peaks [(0 : ℚ)] (some 1) none = [⟨0, 0⟩] ∧ ¬ ((1 : ℚ) ≤ 0) := by
  constructor
  · decide
  · norm_num

/-- C3, amended.  For every signal of length ≠ 1 and any `min_height` /
`min_peak_dist`, every peak returned by `find_peaks` is an in-range bin
carrying its own magnitude, is ≥ `min_height` (default 0), strictly beats
each existing neighbor (a boundary bin beats its single neighbor), and
consecutive retained peaks are at least `min_peak_dist` apart in
increasing index order (greedy left-to-right scan); on
`[0.5,1,2,1,0,5,2.5]` with no threshold/min-distance the peaks are
`[(2, 2.0), (5, 5.0)]`.  (A one-element signal is returned as a peak
unconditionally — the scope removed from the claim.) -/
theorem audio_c3_find_peaks_amended (signal : List ℚ) (min_height : Option ℚ)
    (min_peak_dist : Option ℕ) (hlen : signal.length ≠ 1) :
    (∀ p ∈ find_peaks signal min_height min_peak_dist,
      IsRealPeak signal (min_height.getD 0) p) ∧
    List.Chain'
      (fun p q => p.idx < q.idx ∧ min_peak_dist.getD 0 ≤ q.idx - p.idx)
      (find_peaks signal min_height min_peak_dist) ∧
    find_peaks [1/2, 1, 2, 1, 0, 5, 5/2] none none = [⟨2, 2⟩, ⟨5, 5⟩] := by
  have hex : find_peaks [1/2, 1, 2, 1, 0, 5, 5/2] none none =
      [⟨2, 2⟩, ⟨5, 5⟩] := by
    norm_num [find_peaks, fpLoop]
  cases signal with
  | nil => exact ⟨by simp [find_peaks], by simp [find_peaks], hex⟩
  | cons a tail =>
    cases tail with
    | nil => simp at hlen
    | cons b rest =>
      have h := fpLoop_spec (a :: b :: rest) (min_height.getD 0)
        (min_peak_dist.getD 0) (a :: b :: rest).length 0 [] (by simp)
        (by simp) (by simp)
      exact ⟨h.1, h.2, hex⟩

/-- C3, witness: the amended theorem applied to the seven-sample signal
from the claim, whose length is not 1. -/
theorem audio_c3_find_peaks_witness :
    (([1/2, 1, 2, 1, 0, 5, 5/2] : List ℚ).length ≠ 1) ∧
    find_peaks [1/2, 1, 2, 1, 0, 5, 5/2] none none = [⟨2, 2⟩, ⟨5, 5⟩] :=
  ⟨by norm_num,
    (audio_c3_find_peaks_amended [1/2, 1, 2, 1, 0, 5, 5/2] none none
      (by norm_num)).2.2⟩

/-- Default note used to keep list indexing total in the embedding (the
Rust code indexes only in bounds, after its own asserts). -/
def defaultNote : Note := ⟨0, .A, 0⟩

/-- Result of Rust `slice::binary_search_by` (`Ok(idx)` / `Err(idx)`). -/
inductive SearchOutcome where
  | found (idx : ℕ)
  | notFound (idx : ℕ)
deriving DecidableEq, Repr

/-- The loop of Rust `slice::binary_search_by` with comparator
`f mid ⟷ freq` (used by `TargetNotes::get_closest`,
`audio_analysis/target_notes.rs`): halve `[left, right)` until the key is
found (`found`) or the interval is empty (`notFound insertion_point`).
The fuel argument counts remaining iterations; it is started at the array
length, an upper bound of the interval width, so the loop never runs
out. -/
def bsLoop (f : ℕ → ℚ) (freq : ℚ) : ℕ → ℕ → ℕ → SearchOutcome
  | 0, left, _right => .notFound left
  | fuel + 1, left, right =>
    if left < right then
      if f (left + (right - left) / 2) < freq then
        bsLoop f freq fuel (left + (right - left) / 2 + 1) right
      else if freq < f (left + (right - left) / 2) then
        bsLoop f freq fuel left (left + (right - left) / 2)
      else .found (left + (right - left) / 2)
    else .notFound left

/-- Rust `self.arr.binary_search_by(|note| note.frequency.partial_cmp(&freq))`
(`audio_analysis/target_notes.rs`). -/
def binary_search_by (arr : List Note) (freq : ℚ) : SearchOutcome :=
  bsLoop (fun i => (arr.getD i defaultNote).frequency) freq arr.length 0
    arr.length

/-- `TargetNotes::get_closest`, `audio_analysis/target_notes.rs`.  The
Rust method returns `&Note` and is total for the nonempty arrays that
`TargetNotes::new` admits; the embedding returns `Option Note` (`none`
only on an empty array, where Rust would panic). -/
def get_closest (arr : List Note) (freq : ℚ) : Option Note :=
  match binary_search_by arr freq with
  | .found idx => arr[idx]?
  | .notFound idx =>
    if idx = 0 then arr[idx]?
    else if idx = arr.length then arr[idx - 1]?
    else
      let lower := arr.getD (idx - 1) defaultNote
      let upper := arr.getD idx defaultNote
      let lower_diff := freq - lower.frequency
      let upper_diff := upper.frequency - freq
      if lower_diff < upper_diff then some lower else some upper

/-- `TargetNotes::new`, `audio_analysis/target_notes.rs`: sort the notes
by frequency (`sort_unstable_by` on `frequency`, modelled by insertion
sort on the same key; the Rust sort leaves tie order unspecified).  The
source also asserts nonemptiness, which theorems carry as a
hypothesis. -/
def targetNotesNew (arr : List Note) : List Note :=
  List.insertionSort (fun p q => p.frequency ≤ q.frequency) arr

/-- `TargetNotes::resolution`, `audio_analysis/target_notes.rs`: `0` for
a single note, otherwise `arr[1].frequency - arr[0].frequency`. -/
def resolution (arr : List Note) : ℚ :=
  if arr.length = 1 then 0
  else (arr.getD 1 defaultNote).frequency - (arr.getD 0 defaultNote).frequency

/-- All pairwise absolute frequency differences of the set, as the spec's
words describe the resolution (the comparison point for the refinement
claim about `resolution`). -/
def claimedPairwiseGaps (arr : List Note) : List ℚ :=
  (List.range arr.length).flatMap (fun i =>
    ((List.range arr.length).filter (fun j => i < j)).map (fun j =>
      |(arr.getD i defaultNote).frequency -
        (arr.getD j defaultNote).frequency|))

/-- The spec's resolution: the minimum over all pairs of distinct notes
of the absolute difference of their frequencies. -/
def claimedResolution (arr : List Note) : Option ℚ :=
  (claimedPairwiseGaps arr).min?

lemma bsLoop_spec (f : ℕ → ℚ) (freq : ℚ) (n : ℕ)
    (hmono : ∀ i j, i ≤ j → j < n → f i ≤ f j) :
    ∀ fuel left right, left ≤ right → right ≤ n → right - left ≤ fuel →
    (∀ i, i < left → f i < freq) →
    (∀ i, right ≤ i → i < n → freq < f i) →
    (∃ m, bsLoop f freq fuel left right = .found m ∧ left ≤ m ∧ m < right ∧
      f m = freq) ∨
    (∃ idx, bsLoop f freq fuel left right = .notFound idx ∧ left ≤ idx ∧
      idx ≤ right ∧ (∀ i, i < idx → f i < freq) ∧
      (∀ i, idx ≤ i → i < n → freq < f i)) := by
  intro fuel
  induction fuel with
  | zero =>
    intro left right hlr hrn hfuel hlo hhi
    exact Or.inr ⟨left, rfl, le_refl _, by omega, hlo, by
      intro i hi hin
      exact hhi i (by omega) hin⟩
  | succ k ih =>
    intro left right hlr hrn hfuel hlo hhi
    rw [bsLoop]
    by_cases hlt : left < right
    · rw [if_pos hlt]
      set mid := left + (right - left) / 2 with hmid
      have hmlt : mid < right := by omega
      have hmge : left ≤ mid := by omega
      by_cases h1 : f mid < freq
      · rw [if_pos h1]
        have hlo' : ∀ i, i < mid + 1 → f i < freq := by
          intro i hi
          calc f i ≤ f mid := hmono i mid (by omega) (by omega)
            _ < freq := h1
        rcases ih (mid + 1) right (by omega) hrn (by omega) hlo' hhi with
          ⟨m, hm, hb1, hb2, hb3⟩ | ⟨idx, hi1, hi2, hi3, hi4, hi5⟩
        · exact Or.inl ⟨m, hm, by omega, hb2, hb3⟩
        · exact Or.inr ⟨idx, hi1, by omega, hi3, hi4, hi5⟩
      · rw [if_neg h1]
        by_cases h2 : freq < f mid
        · rw [if_pos h2]
          have hhi' : ∀ i, mid ≤ i → i < n → freq < f i := by
            intro i hmi hin
            calc freq < f mid := h2
              _ ≤ f i := hmono mid i hmi hin
          rcases ih left mid hmge (by omega) (by omega) hlo hhi' with
            ⟨m, hm, hb1, hb2, hb3⟩ | ⟨idx, hi1, hi2, hi3, hi4, hi5⟩
          · exact Or.inl ⟨m, hm, hb1, by omega, hb3⟩
          · exact Or.inr ⟨idx, hi1, hi2, by omega, hi4, hi5⟩
        · rw [if_neg h2]
          exact Or.inl ⟨mid, rfl, hmge, hmlt, le_antisymm (not_lt.mp h2)
            (not_lt.mp h1)⟩
    · rw [if_neg hlt]
      exact Or.inr ⟨left, rfl, le_refl _, by omega, hlo, fun i hi hin =>
        hhi i (by omega) hin⟩

lemma sorted_freq_mono (arr : List Note)
    (hs : List.Sorted (fun a b : Note => a.frequency ≤ b.frequency) arr) :
    ∀ i j, i ≤ j → j < arr.length →
      (arr.getD i defaultNote).frequency ≤
        (arr.getD j defaultNote).frequency := by
  intro i j hij hj
  rcases eq_or_lt_of_le hij with h | h
  · subst h
    exact le_refl _
  · rw [List.getD_eq_getElem arr _ (by omega), List.getD_eq_getElem arr _ hj]
    exact List.pairwise_iff_getElem.mp hs i j (by omega) hj h

/-- C5.  For every nonempty frequency-sorted `TargetNotes` array and
every query frequency, `get_closest` returns a note of the set minimizing
`|freq - note.frequency|`; when the query lies strictly below the lowest
covered frequency it returns the first note, and strictly above the
highest it returns the last note. -/
theorem audio_c5_get_closest (arr : List Note) (freq : ℚ)
    (hne : arr ≠ [])
    (hs : List.Sorted (fun a b : Note => a.frequency ≤ b.frequency) arr) :
    ∃ note, get_closest arr freq = some note ∧ note ∈ arr ∧
      (∀ m ∈ arr, |freq - note.frequency| ≤ |freq - m.frequency|) ∧
      (freq < (arr.getD 0 defaultNote).frequency →
        note = arr.getD 0 defaultNote) ∧
      ((arr.getD (arr.length - 1) defaultNote).frequency < freq →
        note = arr.getD (arr.length - 1) defaultNote) := by
  have hn : 0 < arr.length := List.length_pos.mpr hne
  set f := fun i => (arr.getD i defaultNote).frequency with hf
  have hmono := sorted_freq_mono arr hs
  have hspec := bsLoop_spec f freq arr.length hmono arr.length 0 arr.length
    (by omega) (le_refl _) (by omega) (by omega) (by intro i h1 h2; omega)
  have hmem : ∀ i, i < arr.length → arr.getD i defaultNote ∈ arr := by
    intro i hi
    rw [List.getD_eq_getElem arr _ hi]
    exact List.getElem_mem _
  have hidxof : ∀ m ∈ arr, ∃ j, j < arr.length ∧
      arr.getD j defaultNote = m := by
    intro m hm
    obtain ⟨j, hj, he⟩ := List.mem_iff_getElem.mp hm
    exact ⟨j, hj, by rw [List.getD_eq_getElem arr _ hj]; exact he⟩
  rcases hspec with ⟨m, hout, hm0, hmn, hfm⟩ |
    ⟨idx, hout, h0, hin, hlow, hhigh⟩
  · refine ⟨arr.getD m defaultNote, ?_, hmem m hmn, ?_, ?_, ?_⟩
    · unfold get_closest binary_search_by
      simp only [hout]
      rw [List.getElem?_eq_getElem hmn, List.getD_eq_getElem arr _ hmn]
    · intro x hx
      have hz : |freq - (arr.getD m defaultNote).frequency| = 0 := by
        rw [show (arr.getD m defaultNote).frequency = f m from rfl, hfm]
        simp
      rw [hz]
      positivity
    · intro hlt
      exfalso
      have h1 := hmono 0 m (by omega) hmn
      have h2 : (arr.getD m defaultNote).frequency = freq := hfm
      linarith
    · intro hlt
      exfalso
      have h1 := hmono m (arr.length - 1) (by omega) (by omega)
      have h2 : (arr.getD m defaultNote).frequency = freq := hfm
      linarith
  · by_cases hidx0 : idx = 0
    · subst hidx0
      refine ⟨arr.getD 0 defaultNote, ?_, hmem 0 hn, ?_, fun _ => rfl, ?_⟩
      · unfold get_closest binary_search_by
        simp only [hout]
        show arr[(0 : ℕ)]? = some (arr.getD 0 defaultNote)
        rw [List.getElem?_eq_getElem hn, List.getD_eq_getElem arr _ hn]
      · intro x hx
        obtain ⟨j, hj, he⟩ := hidxof x hx
        have h1 : freq < f 0 := hhigh 0 (by omega) hn
        have h2 : freq < f j := hhigh j (by omega) hj
        have h3 : f 0 ≤ f j := hmono 0 j (by omega) hj
        subst he
        rw [abs_of_neg (show freq - (arr.getD 0 defaultNote).frequency < 0 by
          simp only [hf] at h1; linarith),
          abs_of_neg (show freq - (arr.getD j defaultNote).frequency < 0 by
          simp only [hf] at h2; linarith)]
        simp only [hf] at h3
        linarith
      · intro hlt
        exfalso
        have h1 : freq < f (arr.length - 1) := hhigh _ (by omega) (by omega)
        simp only [hf] at h1 hlt
        linarith
    · by_cases hidxn : idx = arr.length
      · subst hidxn
        refine ⟨arr.getD (arr.length - 1) defaultNote, ?_,
          hmem _ (by omega), ?_, ?_, fun _ => rfl⟩
        · unfold get_closest binary_search_by
          simp only [hout]
          rw [if_neg (by omega), if_pos trivial, List.getElem?_eq_getElem
            (show arr.length - 1 < arr.length by omega),
            List.getD_eq_getElem arr _ (show arr.length - 1 < arr.length
              by omega)]
        · intro x hx
          obtain ⟨j, hj, he⟩ := hidxof x hx
          have h1 : f (arr.length - 1) < freq := hlow _ (by omega)
          have h2 : f j < freq := hlow j (by omega)
          have h3 : f j ≤ f (arr.length - 1) := hmono j _ (by omega)
            (by omega)
          subst he
          rw [abs_of_pos (show 0 < freq -
              (arr.getD (arr.length - 1) defaultNote).frequency by
            simp only [hf] at h1; linarith),
            abs_of_pos (show 0 < freq - (arr.getD j defaultNote).frequency by
            simp only [hf] at h2; linarith)]
          simp only [hf] at h3
          linarith
        · intro hlt
          exfalso
          have h1 : f 0 < freq := hlow 0 (by omega)
          simp only [hf] at h1 hlt
          linarith
      · have hidxlt : idx < arr.length := by omega
        have hidxpos : 0 < idx := by omega
        have hlowv : f (idx - 1) < freq := hlow (idx - 1) (by omega)
        have hupv : freq < f idx := hhigh idx (le_refl _) hidxlt
        have hgc : get_closest arr freq =
            (if freq - (arr.getD (idx - 1) defaultNote).frequency <
                (arr.getD idx defaultNote).frequency - freq then
              some (arr.getD (idx - 1) defaultNote)
            else some (arr.getD idx defaultNote)) := by
          unfold get_closest binary_search_by
          simp only [hout]
          rw [if_neg hidx0, if_neg hidxn]
        have hmin : ∀ x ∈ arr,
            min (freq - f (idx - 1)) (f idx - freq) ≤
              |freq - x.frequency| := by
          intro x hx
          obtain ⟨j, hj, he⟩ := hidxof x hx
          subst he
          by_cases hji : j < idx
          · have h2 : f j < freq := hlow j hji
            have h3 : f j ≤ f (idx - 1) := hmono j (idx - 1) (by omega)
              (by omega)
            rw [abs_of_pos (show 0 < freq -
                (arr.getD j defaultNote).frequency by
              simp only [hf] at h2; linarith)]
            refine le_trans (min_le_left _ _) ?_
            simp only [hf] at h3 ⊢
            linarith
          · have h2 : freq < f j := hhigh j (by omega) hj
            have h3 : f idx ≤ f j := hmono idx j (by omega) hj
            rw [abs_of_neg (show freq -
                (arr.getD j defaultNote).frequency < 0 by
              simp only [hf] at h2; linarith)]
            refine le_trans (min_le_right _ _) ?_
            simp only [hf] at h3 ⊢
            linarith
        by_cases hcmp : freq - (arr.getD (idx - 1) defaultNote).frequency <
            (arr.getD idx defaultNote).frequency - freq
        · refine ⟨arr.getD (idx - 1) defaultNote, ?_, hmem _ (by omega),
            ?_, ?_, ?_⟩
          · rw [hgc, if_pos hcmp]
          · intro x hx
            have habs : |freq - (arr.getD (idx - 1) defaultNote).frequency| =
                freq - f (idx - 1) := by
              apply abs_of_pos
              simp only [hf] at hlowv ⊢
              linarith
            rw [habs]
            have hminv : min (freq - f (idx - 1)) (f idx - freq) =
                freq - f (idx - 1) := by
              apply min_eq_left
              simp only [hf] at hcmp ⊢
              linarith
            rw [← hminv]
            exact hmin x hx
          · intro hlt
            exfalso
            have h4 := hmono 0 (idx - 1) (by omega) (by omega)
            simp only [hf] at h4 hlowv hlt
            linarith
          · intro hlt
            exfalso
            have h4 := hmono idx (arr.length - 1) (by omega) (by omega)
            simp only [hf] at h4 hupv hlt
            linarith
        · refine ⟨arr.getD idx defaultNote, ?_, hmem _ hidxlt, ?_, ?_, ?_⟩
          · rw [hgc, if_neg hcmp]
          · intro x hx
            have habs : |freq - (arr.getD idx defaultNote).frequency| =
                f idx - freq := by
              rw [abs_of_neg (show freq -
                  (arr.getD idx defaultNote).frequency < 0 by
                simp only [hf] at hupv ⊢; linarith)]
              simp only [hf]
              ring
            rw [habs]
            have hminv : min (freq - f (idx - 1)) (f idx - freq) =
                f idx - freq := by
              apply min_eq_right
              simp only [hf] at hcmp ⊢
              linarith
            rw [← hminv]
            exact hmin x hx
          · intro hlt
            exfalso
            have h4 := hmono 0 (idx - 1) (by omega) (by omega)
            simp only [hf] at h4 hlowv hlt
            linarith
          · intro hlt
            exfalso
            have h4 := hmono idx (arr.length - 1) (by omega) (by omega)
            simp only [hf] at h4 hupv hlt
            linarith

/-- C5, witness: the theorem applied to the sorted two-note set with
frequencies 10 and 20 at query 14. -/
theorem audio_c5_get_closest_witness :
    ∃ note, get_closest [⟨1, NoteName.A, 10⟩, ⟨1, NoteName.B, 20⟩] 14 =
        some note ∧
      note ∈ [(⟨1, NoteName.A, 10⟩ : Note), ⟨1, NoteName.B, 20⟩] ∧
      ∀ m ∈ [(⟨1, NoteName.A, 10⟩ : Note), ⟨1, NoteName.B, 20⟩],
        |14 - note.frequency| ≤ |14 - m.frequency| := by
  obtain ⟨note, h1, h2, h3, -, -⟩ := audio_c5_get_closest
    [⟨1, NoteName.A, 10⟩, ⟨1, NoteName.B, 20⟩] 14 (by decide) (by decide)
  exact ⟨note, h1, h2, h3⟩

/-- C6, counterexample.  For the three-note set with frequencies
10, 20, 21 (already sorted), `resolution()` is `20 - 10 = 10`, while the
minimum over all pairs of distinct notes of the absolute frequency
difference is `21 - 20 = 1`. -/
theorem audio_c6_resolution_counterexample :
    resolution (targetNotesNew
      [⟨1, NoteName.A, 10⟩, ⟨1, NoteName.B, 20⟩, ⟨1, NoteName.C, 21⟩]) =
      10 ∧
    claimedResolution (targetNotesNew
      [⟨1, NoteName.A, 10⟩, ⟨1, NoteName.B, 20⟩, ⟨1, NoteName.C, 21⟩]) =
      some 1 ∧
    (10 : ℚ) ≠ 1 := by
  refine ⟨?_, ?_, by norm_num⟩ <;>
    norm_num [resolution, targetNotesNew, claimedResolution,
      claimedPairwiseGaps, List.insertionSort, List.orderedInsert,
      List.range_succ, List.min?, min_def]

/-- C6, amended.  For every frequency-sorted `TargetNotes` with at least
two notes, `resolution()` equals the difference of its two lowest
frequencies (`arr[1].frequency - arr[0].frequency`); this value is
nonnegative and is itself one of the pairwise absolute frequency gaps of
the set — hence an upper bound on the spec's minimal pairwise spacing —
but not in general the minimum over all pairs. -/
theorem audio_c6_resolution_amended (arr : List Note)
    (hs : List.Sorted (fun a b : Note => a.frequency ≤ b.frequency) arr)
    (h2 : 2 ≤ arr.length) :
    resolution arr =
      (arr.getD 1 defaultNote).frequency -
        (arr.getD 0 defaultNote).frequency ∧
    0 ≤ resolution arr ∧
    resolution arr ∈ claimedPairwiseGaps arr := by
  have hres : resolution arr =
      (arr.getD 1 defaultNote).frequency -
        (arr.getD 0 defaultNote).frequency := by
    unfold resolution
    rw [if_neg (by omega)]
  have hmono := sorted_freq_mono arr hs
  have h01 := hmono 0 1 (by omega) (by omega)
  refine ⟨hres, by rw [hres]; linarith, ?_⟩
  rw [claimedPairwiseGaps, List.mem_flatMap]
  refine ⟨0, List.mem_range.mpr (by omega), ?_⟩
  rw [List.mem_map]
  refine ⟨1, ?_, ?_⟩
  · rw [List.mem_filter]
    exact ⟨List.mem_range.mpr (by omega), by decide⟩
  · rw [abs_of_nonpos (by linarith), hres]
    ring

/-- C6, witness: the amended theorem applied to the sorted two-note set
with frequencies 10 and 20. -/
theorem audio_c6_resolution_witness :
    List.Sorted (fun a b : Note => a.frequency ≤ b.frequency)
      [⟨1, NoteName.A, 10⟩, ⟨1, NoteName.B, 20⟩] ∧
    2 ≤ ([⟨1, NoteName.A, 10⟩, ⟨1, NoteName.B, 20⟩] : List Note).length ∧
    resolution [⟨1, NoteName.A, 10⟩, ⟨1, NoteName.B, 20⟩] = 10 := by
  refine ⟨by decide, by decide, ?_⟩
  have h := (audio_c6_resolution_amended
    [⟨1, NoteName.A, 10⟩, ⟨1, NoteName.B, 20⟩] (by decide) (by decide)).1
  rw [h]
  norm_num

/-- The sort performed by `NoteRegistry::from_notes`
(`core/note_registry.rs`): `notes.sort_unstable_by` on `frequency`,
modelled by insertion sort on the same key (deterministic; Rust leaves
tie order unspecified, and on the two-element tied input of the
counterexample below Rust's insertion sort for short slices computes the
same lists). -/
def sortByFreq (notes : List Note) : List Note :=
  List.insertionSort (fun a b => a.frequency ≤ b.frequency) notes

/-- The construction loop of `NoteRegistry::from_notes`
(`core/note_registry.rs`): walk the sorted notes, tracking the
`(octave, name)` keys already inserted into `note2idx`; return a
`DuplicateNoteError` (modelled as `Except.error ()`) at the first
repeated key, else collect the notes into `idx2note` in order. -/
def registryLoop : List Note → List (ℤ × NoteName) → Except Unit (List Note)
  | [], _ => .ok []
  | n :: rest, seen =>
    if noteKey n ∈ seen then .error ()
    else
      match registryLoop rest (noteKey n :: seen) with
      | .ok l => .ok (n :: l)
      | .error e => .error e

/-- `NoteRegistry::from_notes`, `core/note_registry.rs`: sort by
frequency, then reject any repeated `(octave, name)` identity. -/
def from_notes (notes : List Note) : Except Unit (List Note) :=
  registryLoop (sortByFreq notes) []

lemma registryLoop_ok (l : List Note) (seen : List (ℤ × NoteName))
    (h1 : (l.map noteKey).Nodup) (h2 : ∀ k ∈ l.map noteKey, k ∉ seen) :
    registryLoop l seen = .ok l := by
  induction l generalizing seen with
  | nil => rfl
  | cons n rest ih =>
    rw [List.map_cons, List.nodup_cons] at h1
    rw [registryLoop]
    rw [if_neg (h2 (noteKey n) (by simp))]
    rw [ih (noteKey n :: seen) h1.2 ?_]
    intro k hk
    simp only [List.mem_cons, not_or]
    constructor
    · intro hkn
      subst hkn
      exact h1.1 hk
    · exact h2 k (by simp [hk])

lemma registryLoop_err (l : List Note) (seen : List (ℤ × NoteName))
    (h : ¬ ((l.map noteKey).Nodup ∧ ∀ k ∈ l.map noteKey, k ∉ seen)) :
    registryLoop l seen = .error () := by
  induction l generalizing seen with
  | nil => simp at h
  | cons n rest ih =>
    rw [registryLoop]
    by_cases hmem : noteKey n ∈ seen
    · rw [if_pos hmem]
    · rw [if_neg hmem]
      have hrec : registryLoop rest (noteKey n :: seen) = .error () := by
        apply ih
        intro ⟨hn1, hn2⟩
        apply h
        constructor
        · rw [List.map_cons, List.nodup_cons]
          refine ⟨fun hc => ?_, hn1⟩
          exact (hn2 (noteKey n) hc) (by simp)
        · intro k hk
          rcases List.mem_cons.mp hk with hk | hk
          · subst hk
            exact hmem
          · intro hc
            exact (hn2 k hk) (by simp [hc])
      rw [hrec]

/-- C8, counterexample.  Two notes with distinct identities but the same
frequency: both input orders are accepted (no duplicate `(octave, name)`),
both outputs are sorted by frequency, yet the two permutations of the
same input produce different note lists, because the tie is left in input
order. -/
theorem core_c8_from_notes_counterexample :
    from_notes [⟨1, NoteName.C, 440⟩, ⟨2, NoteName.C, 440⟩] =
      .ok [⟨1, NoteName.C, 440⟩, ⟨2, NoteName.C, 440⟩] ∧
    from_notes [⟨2, NoteName.C, 440⟩, ⟨1, NoteName.C, 440⟩] =
      .ok [⟨2, NoteName.C, 440⟩, ⟨1, NoteName.C, 440⟩] ∧
    List.Perm [(⟨1, NoteName.C, 440⟩ : Note), ⟨2, NoteName.C, 440⟩]
      [⟨2, NoteName.C, 440⟩, ⟨1, NoteName.C, 440⟩] ∧
    ([(⟨1, NoteName.C, 440⟩ : Note), ⟨2, NoteName.C, 440⟩] ≠
      [⟨2, NoteName.C, 440⟩, ⟨1, NoteName.C, 440⟩]) := by
  exact ⟨rfl, rfl, by decide, by decide⟩

/-- C8, amended.  `from_notes` errors exactly when two entries share an
`(octave, name)` identity; on success the output is a permutation of the
input sorted by frequency ascending, and two permutations of the same
input yield identical results whenever the frequencies are pairwise
distinct (tied frequencies stay in input order, so permutations may then
differ). -/
theorem core_c8_from_notes_amended (l₁ l₂ : List Note) (hp : l₁.Perm l₂) :
    ((∃ r, from_notes l₁ = .ok r) ↔ (l₁.map noteKey).Nodup) ∧
    (∀ r, from_notes l₁ = .ok r →
      r.Perm l₁ ∧
        List.Sorted (fun a b : Note => a.frequency ≤ b.frequency) r) ∧
    ((l₁.map Note.frequency).Nodup → from_notes l₁ = from_notes l₂) := by
  haveI htot : IsTotal Note (fun a b : Note => a.frequency ≤ b.frequency) :=
    ⟨fun a b => le_total a.frequency b.frequency⟩
  haveI htr : IsTrans Note (fun a b : Note => a.frequency ≤ b.frequency) :=
    ⟨fun _ _ _ hab hbc => le_trans hab hbc⟩
  have hsortperm : ∀ l : List Note, (sortByFreq l).Perm l := fun l =>
    List.perm_insertionSort _ l
  have hsorted : ∀ l : List Note,
      List.Sorted (fun a b : Note => a.frequency ≤ b.frequency)
        (sortByFreq l) := fun l => List.sorted_insertionSort _ l
  have hkeys : ∀ l : List Note,
      ((sortByFreq l).map noteKey).Nodup ↔ (l.map noteKey).Nodup :=
    fun l => ((hsortperm l).map noteKey).nodup_iff
  have hmain : ∀ l : List Note,
      (∃ r, from_notes l = .ok r) ↔ (l.map noteKey).Nodup := by
    intro l
    constructor
    · intro ⟨r, hr⟩
      by_contra hdup
      rw [from_notes, registryLoop_err _ _ (fun hc =>
        hdup ((hkeys l).mp hc.1))] at hr
      exact Except.noConfusion hr
    · intro hnd
      exact ⟨sortByFreq l, by
        rw [from_notes, registryLoop_ok _ _ ((hkeys l).mpr hnd)
          (by simp)]⟩
  have hval : ∀ (l : List Note) r, from_notes l = .ok r →
      r = sortByFreq l := by
    intro l r hr
    by_cases hnd : (l.map noteKey).Nodup
    · rw [from_notes, registryLoop_ok _ _ ((hkeys l).mpr hnd) (by simp)]
        at hr
      exact (Except.ok.inj hr).symm
    · rw [from_notes, registryLoop_err _ _ (fun hc =>
        hnd ((hkeys l).mp hc.1))] at hr
      exact Except.noConfusion hr
  refine ⟨hmain l₁, ?_, ?_⟩
  · intro r hr
    rw [hval l₁ r hr]
    exact ⟨hsortperm l₁, hsorted l₁⟩
  · intro hfreq
    by_cases hnd : (l₁.map noteKey).Nodup
    · obtain ⟨r₁, hr₁⟩ := (hmain l₁).mpr hnd
      obtain ⟨r₂, hr₂⟩ := (hmain l₂).mpr ((hp.map noteKey).nodup_iff.mp hnd)
      rw [hr₁, hr₂, hval l₁ r₁ hr₁, hval l₂ r₂ hr₂]
      have hperm : (sortByFreq l₁).Perm (sortByFreq l₂) :=
        ((hsortperm l₁).trans hp).trans (hsortperm l₂).symm
      have hne : ∀ l : List Note, l.Perm l₁ →
          List.Pairwise (fun a b : Note => a.frequency ≠ b.frequency) l := by
        intro l hl
        have : (l.map Note.frequency).Nodup :=
          ((hl.map Note.frequency).nodup_iff).mpr hfreq
        rw [List.Nodup, List.pairwise_map] at this
        exact this
      have hstrict : ∀ l : List Note, l.Perm l₁ →
          List.Sorted (fun a b : Note => a.frequency ≤ b.frequency) l →
          List.Sorted (fun a b : Note => a.frequency < b.frequency) l := by
        intro l hl hsle
        exact List.Pairwise.imp₂ (fun a b h1 h2 => lt_of_le_of_ne h1 h2)
          hsle (hne l hl)
      haveI : IsAntisymm Note (fun a b : Note => a.frequency < b.frequency) :=
        ⟨fun a b h1 h2 => absurd h2 (not_lt.mpr (le_of_lt h1))⟩
      have e := List.eq_of_perm_of_sorted hperm
        (hstrict (sortByFreq l₁) (hsortperm l₁) (hsorted l₁))
        (hstrict (sortByFreq l₂) ((hsortperm l₂).trans hp.symm) (hsorted l₂))
      rw [e]
    · have h1 := registryLoop_err (sortByFreq l₁) [] (fun hc =>
        hnd ((hkeys l₁).mp hc.1))
      have hnd2 : ¬ (l₂.map noteKey).Nodup := fun hc =>
        hnd ((hp.map noteKey).nodup_iff.mpr hc)
      have h2 := registryLoop_err (sortByFreq l₂) [] (fun hc =>
        hnd2 ((hkeys l₂).mp hc.1))
      rw [from_notes, from_notes, h1, h2]

/-- C8, witness: the amended theorem applied to the two permutations of a
two-note input with distinct frequencies 1 and 2. -/
theorem core_c8_from_notes_witness :
    List.Perm [(⟨1, NoteName.C, 1⟩ : Note), ⟨1, NoteName.D, 2⟩]
      [⟨1, NoteName.D, 2⟩, ⟨1, NoteName.C, 1⟩] ∧
    ([(⟨1, NoteName.C, 1⟩ : Note), ⟨1, NoteName.D, 2⟩].map
      Note.frequency).Nodup ∧
    from_notes [⟨1, NoteName.C, 1⟩, ⟨1, NoteName.D, 2⟩] =
      from_notes [⟨1, NoteName.D, 2⟩, ⟨1, NoteName.C, 1⟩] :=
  ⟨by decide, by decide,
    (core_c8_from_notes_amended
      [⟨1, NoteName.C, 1⟩, ⟨1, NoteName.D, 2⟩]
      [⟨1, NoteName.D, 2⟩, ⟨1, NoteName.C, 1⟩] (by decide)).2.2 (by decide)⟩

/-- `Tuning::note(string_idx)` reads `values[string_idx - 1]`
(`core/tuning.rs`); the generation used by `game/active_notes.rs` treats
a string without an open note as absent, hence `Option`. -/
def tuningNote (values : List Note) (string_idx : ℕ) : Option Note :=
  values[string_idx - 1]?

/-- `NoteRegistry::find_note` / `get` (`core/note_registry.rs`): the
`note2idx` hash lookup by `(octave, name)` key, modelled as the search of
the registry list for the unique note carrying that key. -/
def regFindNote (reg : List Note) (key : ℤ × NoteName) : Option Note :=
  reg.find? (fun m => decide (noteKey m = key))

/-- `NoteRegistry::add_semitones` (`core/note_registry.rs`): transpose
the identity, then return the registry's own note with that identity, or
`none` when the transposed identity is not in the registry. -/
def add_semitones (reg : List Note) (note : Note) (semitones : ℤ) :
    Option Note :=
  regFindNote reg (noteKey (add_semitone note semitones))

/-- `fn active_locations` (`game/active_notes.rs`): every `FretLoc` of
the configured String×Fret rectangle, strings outer, frets inner. -/
def active_locations (sBeg sEnd fBeg fEnd : ℕ) : List FretLoc :=
  (List.range' sBeg (sEnd - sBeg)).flatMap (fun s =>
    (List.range' fBeg (fEnd - fBeg)).map (fun f => ⟨s, f⟩))

/-- `fn locs2notes` (`game/active_notes.rs`): pair each location with the
open-string note of its string transposed by its fret, `none` when the
string has no note in the tuning or the transposition leaves the
registry. -/
def locs2notes (locs : List FretLoc) (tuning reg : List Note) :
    List (FretLoc × Option Note) :=
  locs.map (fun loc =>
    match tuningNote tuning loc.string_idx with
    | none => (loc, none)
    | some open_string_note =>
      (loc, add_semitones reg open_string_note (loc.fret_idx : ℤ)))

/-- The per-location result of `locs2notes`. -/
def locAnswer (tuning reg : List Note) (loc : FretLoc) : Option Note :=
  match tuningNote tuning loc.string_idx with
  | none => none
  | some open_string_note =>
    add_semitones reg open_string_note (loc.fret_idx : ℤ)

/-- `ActiveNotes::new` (`game/active_notes.rs`): keep the `some` entries
of `locs2notes` over the rectangle in a map (the `HashMap` is modelled as
the association list of its entries; the rectangle's locations are
pairwise distinct, so each key is inserted at most once). -/
def activeNotesNew (reg tuning : List Note) (sBeg sEnd fBeg fEnd : ℕ) :
    List (FretLoc × Note) :=
  (locs2notes (active_locations sBeg sEnd fBeg fEnd) tuning reg).filterMap
    (fun lp => lp.2.map (fun n => (lp.1, n)))

/-- `ActiveNotes::get` (`game/active_notes.rs`): map lookup. -/
def activeNotesGet (notes : List (FretLoc × Note)) (loc : FretLoc) :
    Option Note :=
  (notes.find? (fun kv => decide (kv.1 = loc))).map (fun kv => kv.2)

lemma locs2notes_cons (l : FretLoc) (rest : List FretLoc)
    (tuning reg : List Note) :
    locs2notes (l :: rest) tuning reg =
      (l, locAnswer tuning reg l) :: locs2notes rest tuning reg := by
  rw [locs2notes, List.map_cons, ← locs2notes, locAnswer]
  cases tuningNote tuning l.string_idx <;> rfl

lemma build_cons_none (tuning reg : List Note) (l : FretLoc)
    (rest : List FretLoc) (h : locAnswer tuning reg l = none) :
    (locs2notes (l :: rest) tuning reg).filterMap
      (fun lp => lp.2.map (fun n => (lp.1, n))) =
    (locs2notes rest tuning reg).filterMap
      (fun lp => lp.2.map (fun n => (lp.1, n))) := by
  rw [locs2notes_cons]
  simp [List.filterMap_cons, h]

lemma build_cons_some (tuning reg : List Note) (l : FretLoc)
    (rest : List FretLoc) (n : Note) (h : locAnswer tuning reg l = some n) :
    (locs2notes (l :: rest) tuning reg).filterMap
      (fun lp => lp.2.map (fun n => (lp.1, n))) =
    (l, n) :: (locs2notes rest tuning reg).filterMap
      (fun lp => lp.2.map (fun n => (lp.1, n))) := by
  rw [locs2notes_cons]
  simp [List.filterMap_cons, h]

lemma activeGet_build_not_mem (tuning reg : List Note) :
    ∀ (locs : List FretLoc) (loc : FretLoc), loc ∉ locs →
    activeNotesGet ((locs2notes locs tuning reg).filterMap
      (fun lp => lp.2.map (fun n => (lp.1, n)))) loc = none := by
  intro locs
  induction locs with
  | nil => intro loc _; rfl
  | cons l rest ih =>
    intro loc hmem
    have hne : l ≠ loc := fun h => hmem (h ▸ List.mem_cons_self l rest)
    have hrest : loc ∉ rest := fun h => hmem (List.mem_cons_of_mem l h)
    cases ha : locAnswer tuning reg l with
    | none =>
      rw [build_cons_none tuning reg l rest ha]
      exact ih loc hrest
    | some n =>
      rw [build_cons_some tuning reg l rest n ha]
      rw [activeNotesGet, List.find?_cons_of_neg _ (by simp [hne])]
      exact ih loc hrest

lemma activeGet_build_mem (tuning reg : List Note) :
    ∀ (locs : List FretLoc) (loc : FretLoc), locs.Nodup → loc ∈ locs →
    activeNotesGet ((locs2notes locs tuning reg).filterMap
      (fun lp => lp.2.map (fun n => (lp.1, n)))) loc =
      locAnswer tuning reg loc := by
  intro locs
  induction locs with
  | nil => intro loc _ h; simp at h
  | cons l rest ih =>
    intro loc hnd hmem
    by_cases heq : loc = l
    · subst heq
      have hnotin : loc ∉ rest := (List.nodup_cons.mp hnd).1
      cases ha : locAnswer tuning reg loc with
      | none =>
        rw [build_cons_none tuning reg loc rest ha]
        rw [activeGet_build_not_mem tuning reg rest loc hnotin]
      | some n =>
        rw [build_cons_some tuning reg loc rest n ha]
        rw [activeNotesGet, List.find?_cons_of_pos _ (by simp)]
        rfl
    · have hmem' : loc ∈ rest := by
        rcases List.mem_cons.mp hmem with h | h
        · exact absurd h heq
        · exact h
      have hnd' : rest.Nodup := (List.nodup_cons.mp hnd).2
      cases ha : locAnswer tuning reg l with
      | none =>
        rw [build_cons_none tuning reg l rest ha]
        exact ih loc hnd' hmem'
      | some n =>
        rw [build_cons_some tuning reg l rest n ha]
        rw [activeNotesGet, List.find?_cons_of_neg _
          (by simp; exact fun h => heq h.symm)]
        exact ih loc hnd' hmem'

lemma mem_active_locations (sBeg sEnd fBeg fEnd : ℕ) (loc : FretLoc) :
    loc ∈ active_locations sBeg sEnd fBeg fEnd ↔
      (sBeg ≤ loc.string_idx ∧ loc.string_idx < sEnd ∧
        fBeg ≤ loc.fret_idx ∧ loc.fret_idx < fEnd) := by
  rw [active_locations, List.mem_flatMap]
  constructor
  · intro ⟨s, hs, hmap⟩
    rw [List.mem_map] at hmap
    obtain ⟨f, hf, he⟩ := hmap
    rw [List.mem_range'] at hs hf
    obtain ⟨i, hi, hsi⟩ := hs
    obtain ⟨j, hj, hfj⟩ := hf
    have hs' : loc.string_idx = s := by rw [← he]
    have hf' : loc.fret_idx = f := by rw [← he]
    refine ⟨by omega, by omega, by omega, by omega⟩
  · intro ⟨h1, h2, h3, h4⟩
    refine ⟨loc.string_idx, ?_, ?_⟩
    · rw [List.mem_range']
      exact ⟨loc.string_idx - sBeg, by omega, by omega⟩
    · rw [List.mem_map]
      refine ⟨loc.fret_idx, ?_, rfl⟩
      rw [List.mem_range']
      exact ⟨loc.fret_idx - fBeg, by omega, by omega⟩

lemma nodup_active_locations (sBeg sEnd fBeg fEnd : ℕ) :
    (active_locations sBeg sEnd fBeg fEnd).Nodup := by
  rw [active_locations, List.nodup_flatMap]
  constructor
  · intro s _
    apply List.Nodup.map
    · intro a b hab
      injection hab
    · exact List.nodup_range' _ _
  · have hnd : (List.range' sBeg (sEnd - sBeg)).Nodup :=
      List.nodup_range' _ _
    refine List.Pairwise.imp ?_ (List.Pairwise.and_mem.mp hnd)
    intro s t hst
    intro x hx1 hx2
    rw [List.mem_map] at hx1 hx2
    obtain ⟨f1, _, he1⟩ := hx1
    obtain ⟨f2, _, he2⟩ := hx2
    have : s = t := by
      have h1 : x.string_idx = s := by rw [← he1]
      have h2 : x.string_idx = t := by rw [← he2]
      omega
    exact hst.2.2 this

/-- C7.  For every registry, tuning and configured String×Fret rectangle,
and every location inside the rectangle whose string has an open note in
the tuning, `ActiveNotes::get` returns exactly
`NoteRegistry::add_semitones(open_note, fret)` — `none` when the
transposition leaves the registry, the same `some note` otherwise. -/
theorem game_c7_active_notes (reg tuning : List Note)
    (sBeg sEnd fBeg fEnd : ℕ) (loc : FretLoc) (open_note : Note)
    (hstring : sBeg ≤ loc.string_idx ∧ loc.string_idx < sEnd)
    (hfret : fBeg ≤ loc.fret_idx ∧ loc.fret_idx < fEnd)
    (htuning : tuningNote tuning loc.string_idx = some open_note) :
    activeNotesGet (activeNotesNew reg tuning sBeg sEnd fBeg fEnd) loc =
      add_semitones reg open_note (loc.fret_idx : ℤ) := by
  rw [activeNotesNew, activeGet_build_mem tuning reg _ loc
    (nodup_active_locations sBeg sEnd fBeg fEnd)
    ((mem_active_locations sBeg sEnd fBeg fEnd loc).mpr
      ⟨hstring.1, hstring.2, hfret.1, hfret.2⟩)]
  rw [locAnswer, htuning]

/-- C7, witness: registry {E2, F2}, string 1 tuned to E2, rectangle
strings `[1,2)` × frets `[0,2)`; at location (1,1) the map holds F2, the
transposition of E2 by one semitone. -/
theorem game_c7_active_notes_witness :
    ((1 ≤ 1 ∧ 1 < 2) ∧ (0 ≤ 1 ∧ 1 < 2)) ∧
    tuningNote [⟨2, NoteName.E, 82⟩] 1 = some ⟨2, NoteName.E, 82⟩ ∧
    activeNotesGet (activeNotesNew
        [⟨2, NoteName.E, 82⟩, ⟨2, NoteName.F, 87⟩]
        [⟨2, NoteName.E, 82⟩] 1 2 0 2) ⟨1, 1⟩ =
      add_semitones [⟨2, NoteName.E, 82⟩, ⟨2, NoteName.F, 87⟩]
        ⟨2, NoteName.E, 82⟩ 1 ∧
    add_semitones [⟨2, NoteName.E, 82⟩, ⟨2, NoteName.F, 87⟩]
      ⟨2, NoteName.E, 82⟩ 1 = some ⟨2, NoteName.F, 87⟩ :=
  ⟨⟨⟨by omega, by omega⟩, ⟨by omega, by omega⟩⟩, by decide,
    game_c7_active_notes [⟨2, NoteName.E, 82⟩, ⟨2, NoteName.F, 87⟩]
      [⟨2, NoteName.E, 82⟩] 1 2 0 2 ⟨1, 1⟩ ⟨2, NoteName.E, 82⟩
      ⟨by decide, by decide⟩ ⟨by decide, by decide⟩ (by decide),
    by decide⟩

/-- `GameState`, `game/game_state.rs`. -/
structure GameState where
  target_note : Note
  target_loc : FretLoc
  needed_detection_count : ℕ
  curr_detection_count : ℕ
deriving DecidableEq, Repr

/-- The per-result detection increment of the game loop
(`game/game_logic.rs`): `(note == state.target_note) as usize`, with
`==` the identity-only `PartialEq` of `Note`; an empty recognition adds
nothing. -/
def detectionIncrement (target : Note) (analysis : Option Note) : ℕ :=
  match analysis with
  | some note => if noteEq note target then 1 else 0
  | none => 0

/-- One consumed `AnalysisResult` of the inner loop
(`game/game_logic.rs`): the state with the incremented counter. -/
def stepState (st : GameState) (analysis : Option Note) : GameState :=
  { st with curr_detection_count :=
      st.curr_detection_count + detectionIncrement st.target_note analysis }

/-- The progress re-broadcast of one inner-loop iteration
(`game/game_logic.rs`): the state is sent again when the counter is
positive and divisible by `config.state_update_period`. -/
def progressCasts (st : GameState) (period : ℕ) : List GameState :=
  if 0 < st.curr_detection_count ∧
      st.curr_detection_count % period = 0 then [st] else []

/-- Result of one round of the inner `for analysis in rx.iter()` loop of
`game/game_logic.rs`: final state, progress broadcasts in send order,
the unconsumed rest of the stream, and whether the round ended by
reaching `needed_detection_count` (the embedding is given the available
finite prefix of the stream; the Rust loop would keep waiting on the
channel). -/
structure RoundResult where
  final : GameState
  casts : List GameState
  rest : List (Option Note)
  completed : Bool
deriving Repr

/-- The inner loop of the game thread (`game/game_logic.rs`,
`GameLogic::new`): consume recognized-note results strictly in arrival
order; increment on identity match; re-broadcast each period; break as
soon as the counter equals `needed_detection_count`. -/
def runRound (st : GameState) (period : ℕ) :
    List (Option Note) → RoundResult
  | [] => ⟨st, [], [], false⟩
  | a :: rest =>
    if (stepState st a).curr_detection_count =
        st.needed_detection_count then
      ⟨stepState st a, progressCasts (stepState st a) period, rest, true⟩
    else
      ⟨(runRound (stepState st a) period rest).final,
        progressCasts (stepState st a) period ++
          (runRound (stepState st a) period rest).casts,
        (runRound (stepState st a) period rest).rest,
        (runRound (stepState st a) period rest).completed⟩

/-- A value sent to the observer channels, tagged by its send site in
`game/game_logic.rs`: the initial broadcast of a freshly picked target,
or a progress re-broadcast. -/
inductive Cast where
  | start (s : GameState)
  | progress (s : GameState)
deriving DecidableEq, Repr

/-- The state carried by a broadcast. -/
def castState : Cast → GameState
  | .start s => s
  | .progress s => s

/-- The outer forever-loop of the game thread (`game/game_logic.rs`):
per iteration, pick a target (the random draws of `pick_note` are
supplied as a stream of picks), broadcast the fresh `GameState` with a
zero counter, then run the inner loop; continue with the next pick only
when the round completed.  The run ends when the pick stream, or (without
completion) the note stream, is exhausted. -/
def gameRun (needed period : ℕ) :
    List (Note × FretLoc) → List (Option Note) → List Cast
  | [], _ => []
  | p :: picks, inputs =>
    Cast.start ⟨p.1, p.2, needed, 0⟩ ::
      (((runRound ⟨p.1, p.2, needed, 0⟩ period inputs).casts.map
          Cast.progress) ++
        (if (runRound ⟨p.1, p.2, needed, 0⟩ period inputs).completed then
          gameRun needed period picks
            (runRound ⟨p.1, p.2, needed, 0⟩ period inputs).rest
        else []))

/-- Number of matches of the stream prefix against a target. -/
def matchCount (target : Note) (l : List (Option Note)) : ℕ :=
  (l.map (detectionIncrement target)).sum

/-- Number of new-target broadcasts in a cast trace. -/
def countStarts (l : List Cast) : ℕ :=
  l.countP (fun c => match c with | .start _ => true | .progress _ => false)

lemma stepState_curr (st : GameState) (a : Option Note) :
    (stepState st a).curr_detection_count =
      st.curr_detection_count + detectionIncrement st.target_note a := rfl

lemma stepState_target (st : GameState) (a : Option Note) :
    (stepState st a).target_note = st.target_note := rfl

lemma stepState_needed (st : GameState) (a : Option Note) :
    (stepState st a).needed_detection_count =
      st.needed_detection_count := rfl

lemma detectionIncrement_le (target : Note) (a : Option Note) :
    detectionIncrement target a ≤ 1 := by
  cases a with
  | none => simp [detectionIncrement]
  | some n =>
    simp only [detectionIncrement]
    split
    · omega
    · omega

lemma matchCount_cons (t : Note) (a : Option Note) (l : List (Option Note)) :
    matchCount t (a :: l) = detectionIncrement t a + matchCount t l := by
  simp [matchCount]

lemma mem_progressCasts (st : GameState) (period : ℕ) :
    ∀ c ∈ progressCasts st period, c = st := by
  intro c hc
  unfold progressCasts at hc
  split at hc
  · simpa using hc
  · simp at hc

lemma runRound_rest_le (period : ℕ) :
    ∀ (inputs : List (Option Note)) (st : GameState),
      (runRound st period inputs).rest.length ≤ inputs.length := by
  intro inputs
  induction inputs with
  | nil => intro st; exact Nat.le_refl 0
  | cons a rest ih =>
    intro st
    rw [runRound]
    by_cases h : (stepState st a).curr_detection_count =
        st.needed_detection_count
    · rw [if_pos h]
      simp
    · rw [if_neg h]
      exact le_trans (ih (stepState st a)) (by simp)

lemma runRound_completed_iff (period : ℕ) :
    ∀ (inputs : List (Option Note)) (st : GameState),
      (runRound st period inputs).completed = true ↔
        ∃ k, 1 ≤ k ∧ k ≤ inputs.length ∧
          st.curr_detection_count +
              matchCount st.target_note (inputs.take k) =
            st.needed_detection_count := by
  intro inputs
  induction inputs with
  | nil =>
    intro st
    constructor
    · intro h
      exact absurd h (by simp [runRound])
    · intro ⟨k, h1, h2, _⟩
      simp at h2
      omega
  | cons a rest ih =>
    intro st
    constructor
    · intro hc
      rw [runRound] at hc
      by_cases h : (stepState st a).curr_detection_count =
          st.needed_detection_count
      · refine ⟨1, le_refl 1, by simp, ?_⟩
        have ht : (a :: rest).take 1 = [a] := rfl
        rw [ht]
        have hm : matchCount st.target_note [a] =
            detectionIncrement st.target_note a := by
          simp [matchCount]
        rw [hm]
        rw [stepState_curr] at h
        exact h
      · rw [if_neg h] at hc
        replace hc : (runRound (stepState st a) period rest).completed =
            true := hc
        obtain ⟨k', h1, h2, h3⟩ := (ih (stepState st a)).mp hc
        refine ⟨k' + 1, by omega, by simp; omega, ?_⟩
        rw [List.take_succ_cons, matchCount_cons]
        rw [stepState_curr, stepState_target, stepState_needed] at h3
        omega
    · intro ⟨k, hk1, hk2, hk3⟩
      rw [runRound]
      by_cases h : (stepState st a).curr_detection_count =
          st.needed_detection_count
      · rw [if_pos h]
      · rw [if_neg h]
        show (runRound (stepState st a) period rest).completed = true
        apply (ih (stepState st a)).mpr
        have hk1' : 2 ≤ k := by
          by_contra hlt
          have hke : k = 1 := by omega
          subst hke
          apply h
          rw [stepState_curr]
          have ht : (a :: rest).take 1 = [a] := rfl
          rw [ht] at hk3
          have hm : matchCount st.target_note [a] =
              detectionIncrement st.target_note a := by
            simp [matchCount]
          rw [hm] at hk3
          exact hk3
        refine ⟨k - 1, by omega, by simp at hk2; omega, ?_⟩
        rw [stepState_curr, stepState_target, stepState_needed]
        have ht : (a :: rest).take k = a :: rest.take (k - 1) := by
          obtain ⟨n, rfl⟩ : ∃ n, k = n + 1 := ⟨k - 1, by omega⟩
          simp
        rw [ht, matchCount_cons] at hk3
        omega

lemma runRound_consumed (period : ℕ) :
    ∀ (inputs : List (Option Note)) (st : GameState),
      (runRound st period inputs).completed = true →
      1 ≤ inputs.length - (runRound st period inputs).rest.length ∧
      inputs.length - (runRound st period inputs).rest.length ≤
        inputs.length ∧
      st.curr_detection_count + matchCount st.target_note
          (inputs.take
            (inputs.length - (runRound st period inputs).rest.length)) =
        st.needed_detection_count ∧
      (∀ j, 1 ≤ j →
        j < inputs.length - (runRound st period inputs).rest.length →
        st.curr_detection_count +
            matchCount st.target_note (inputs.take j) ≠
          st.needed_detection_count) ∧
      (runRound st period inputs).final.curr_detection_count =
        st.needed_detection_count := by
  intro inputs
  induction inputs with
  | nil =>
    intro st h
    exact absurd h (by simp [runRound])
  | cons a rest ih =>
    intro st hc
    rw [runRound] at hc ⊢
    by_cases h : (stepState st a).curr_detection_count =
        st.needed_detection_count
    · rw [if_pos h]
      have hlen : (a :: rest).length - rest.length = 1 := by simp
      rw [hlen]
      have ht : (a :: rest).take 1 = [a] := rfl
      rw [ht]
      have hm : matchCount st.target_note [a] =
          detectionIncrement st.target_note a := by
        simp [matchCount]
      rw [stepState_curr] at h
      refine ⟨le_refl 1, by simp, by rw [hm]; exact h, ?_, h⟩
      intro j hj1 hj2
      omega
    · rw [if_neg h] at hc ⊢
      replace hc : (runRound (stepState st a) period rest).completed =
          true := hc
      obtain ⟨hk1, hk2, hk3, hk4, hk5⟩ := ih (stepState st a) hc
      simp only [stepState_curr, stepState_target, stepState_needed]
        at hk3 hk4 hk5
      have hrl := runRound_rest_le period rest (stepState st a)
      have hlen : (a :: rest).length -
          (runRound (stepState st a) period rest).rest.length =
          (rest.length -
            (runRound (stepState st a) period rest).rest.length) + 1 := by
        simp
        omega
      refine ⟨?_, ?_, ?_, ?_, ?_⟩
      · show 1 ≤ (a :: rest).length -
          (runRound (stepState st a) period rest).rest.length
        omega
      · show (a :: rest).length -
          (runRound (stepState st a) period rest).rest.length ≤
          (a :: rest).length
        omega
      · show st.curr_detection_count + matchCount st.target_note
            ((a :: rest).take ((a :: rest).length -
              (runRound (stepState st a) period rest).rest.length)) =
          st.needed_detection_count
        rw [hlen, List.take_succ_cons, matchCount_cons]
        omega
      · intro j hj1 hj2
        show st.curr_detection_count +
            matchCount st.target_note ((a :: rest).take j) ≠
          st.needed_detection_count
        by_cases hj : j = 1
        · subst hj
          have ht : (a :: rest).take 1 = [a] := rfl
          rw [ht]
          have hm : matchCount st.target_note [a] =
              detectionIncrement st.target_note a := by
            simp [matchCount]
          rw [hm]
          rw [stepState_curr] at h
          exact h
        · have ht : (a :: rest).take j = a :: rest.take (j - 1) := by
            obtain ⟨n, rfl⟩ : ∃ n, j = n + 1 := ⟨j - 1, by omega⟩
            simp
          rw [ht, matchCount_cons]
          have := hk4 (j - 1) (by omega) (by
            rw [hlen] at hj2
            omega)
          omega
      · exact hk5

lemma runRound_bounded (period : ℕ) :
    ∀ (inputs : List (Option Note)) (st : GameState),
      st.curr_detection_count < st.needed_detection_count →
      (∀ c ∈ (runRound st period inputs).casts,
        c.curr_detection_count ≤ c.needed_detection_count ∧
        c.needed_detection_count = st.needed_detection_count) ∧
      (runRound st period inputs).final.curr_detection_count ≤
        st.needed_detection_count := by
  intro inputs
  induction inputs with
  | nil =>
    intro st hlt
    exact ⟨by intro c hc; simp [runRound] at hc, le_of_lt hlt⟩
  | cons a rest ih =>
    intro st hlt
    have hinc := detectionIncrement_le st.target_note a
    have hle : (stepState st a).curr_detection_count ≤
        st.needed_detection_count := by
      rw [stepState_curr]
      omega
    rw [runRound]
    by_cases h : (stepState st a).curr_detection_count =
        st.needed_detection_count
    · rw [if_pos h]
      refine ⟨?_, by simpa [stepState_needed] using hle⟩
      intro c hc
      have hc' := mem_progressCasts _ period c hc
      subst hc'
      exact ⟨by rw [stepState_needed]; exact hle, stepState_needed st a⟩
    · rw [if_neg h]
      have hlt' : (stepState st a).curr_detection_count <
          (stepState st a).needed_detection_count := by
        rw [stepState_needed]
        omega
      obtain ⟨ih1, ih2⟩ := ih (stepState st a) hlt'
      refine ⟨?_, by rw [stepState_needed] at ih2; exact ih2⟩
      intro c hc
      rcases List.mem_append.mp hc with hc | hc
      · have hc' := mem_progressCasts _ period c hc
        subst hc'
        exact ⟨by rw [stepState_needed]; exact hle, stepState_needed st a⟩
      · have := ih1 c hc
        rw [stepState_needed] at this
        exact this

lemma gameRun_cast_bound (needed period : ℕ) (hneeded : 1 ≤ needed) :
    ∀ (picks : List (Note × FretLoc)) (inputs : List (Option Note)),
      ∀ c ∈ gameRun needed period picks inputs,
        ((castState c).curr_detection_count ≤
            (castState c).needed_detection_count ∧
          (castState c).needed_detection_count = needed) ∧
        (∀ s, c = Cast.start s → s.curr_detection_count = 0) := by
  intro picks
  induction picks with
  | nil =>
    intro inputs c hc
    simp [gameRun] at hc
  | cons p picks ih =>
    intro inputs c hc
    rw [gameRun] at hc
    rcases List.mem_cons.mp hc with hc | hc
    · subst hc
      exact ⟨⟨Nat.zero_le _, rfl⟩, fun s hs => by
        cases hs
        rfl⟩
    · rcases List.mem_append.mp hc with hc | hc
      · obtain ⟨g, hg, he⟩ := List.mem_map.mp hc
        have hb := (runRound_bounded period inputs
          ⟨p.1, p.2, needed, 0⟩ (by show 0 < needed; omega)).1 g hg
        refine ⟨?_, ?_⟩
        · rw [← he]
          exact hb
        · intro s hs
          rw [← he] at hs
          exact Cast.noConfusion hs
      · by_cases hcomp :
            (runRound ⟨p.1, p.2, needed, 0⟩ period inputs).completed
        · rw [if_pos hcomp] at hc
          exact ih _ c hc
        · rw [if_neg hcomp] at hc
          simp at hc

/-- C10.  Provided `needed_detection_count ≥ 1` and
`state_update_period ≥ 1`: the counter changes by at most 1 per consumed
`AnalysisResult`; every newly picked target is broadcast with a zero
counter; and every `GameState` the game loop broadcasts satisfies
`curr_detection_count ≤ needed_detection_count` (with
`needed_detection_count` the configured constant throughout), because the
inner loop exits as soon as the counter equals the needed count. -/
theorem game_c10_detection_bound (needed period : ℕ)
    (picks : List (Note × FretLoc)) (inputs : List (Option Note))
    (hneeded : 1 ≤ needed) (_hperiod : 1 ≤ period) :
    (∀ (st : GameState) (a : Option Note),
      st.curr_detection_count ≤ (stepState st a).curr_detection_count ∧
      (stepState st a).curr_detection_count ≤
        st.curr_detection_count + 1) ∧
    (∀ s, Cast.start s ∈ gameRun needed period picks inputs →
      s.curr_detection_count = 0) ∧
    (∀ c ∈ gameRun needed period picks inputs,
      (castState c).curr_detection_count ≤
        (castState c).needed_detection_count ∧
      (castState c).needed_detection_count = needed) := by
  refine ⟨?_, ?_, ?_⟩
  · intro st a
    have := detectionIncrement_le st.target_note a
    rw [stepState_curr]
    omega
  · intro s hs
    exact (gameRun_cast_bound needed period hneeded picks inputs
      (Cast.start s) hs).2 s rfl
  · intro c hc
    exact (gameRun_cast_bound needed period hneeded picks inputs c hc).1

/-- C10, witness: the bound applied with `needed = 2`, `period = 1`, one
pick and a stream holding one matching note. -/
theorem game_c10_detection_bound_witness :
    (1 ≤ 2 ∧ 1 ≤ 1) ∧
    ∀ c ∈ gameRun 2 1 [(⟨4, NoteName.A, 440⟩, ⟨1, 0⟩)]
        [some ⟨4, NoteName.A, 440⟩],
      (castState c).curr_detection_count ≤
        (castState c).needed_detection_count ∧
      (castState c).needed_detection_count = 2 :=
  ⟨⟨by omega, by omega⟩,
    (game_c10_detection_bound 2 1 [(⟨4, NoteName.A, 440⟩, ⟨1, 0⟩)]
      [some ⟨4, NoteName.A, 440⟩] (by omega) (by omega)).2.2⟩

/-- C1.  In the game loop: the detection counter increments by exactly 1
precisely when the streamed recognized note equals the current target by
`(name, octave)` — the frequency plays no role — and stays unchanged
otherwise (also on an empty recognition); the inner round ends exactly
when the counter becomes equal to `needed_detection_count` (never
earlier: the consumed prefix is the first one whose match count reaches
the needed count); and each completed round triggers exactly one new
target pick-and-broadcast in the trace. -/
theorem game_c1_detection_match (needed period : ℕ) :
    (∀ (st : GameState) (o : ℤ) (nm : NoteName) (f : ℚ),
      ((stepState st (some ⟨o, nm, f⟩)).curr_detection_count =
          st.curr_detection_count + 1 ↔
        (o = st.target_note.octave ∧ nm = st.target_note.name)) ∧
      ((stepState st (some ⟨o, nm, f⟩)).curr_detection_count =
          st.curr_detection_count ↔
        ¬ (o = st.target_note.octave ∧ nm = st.target_note.name))) ∧
    (∀ (st : GameState) (o : ℤ) (nm : NoteName) (f₁ f₂ : ℚ),
      stepState st (some ⟨o, nm, f₁⟩) = stepState st (some ⟨o, nm, f₂⟩)) ∧
    (∀ st : GameState, stepState st none = st) ∧
    (∀ (st : GameState) (inputs : List (Option Note)),
      (runRound st period inputs).completed = true ↔
        ∃ k, 1 ≤ k ∧ k ≤ inputs.length ∧
          st.curr_detection_count +
              matchCount st.target_note (inputs.take k) =
            st.needed_detection_count) ∧
    (∀ (st : GameState) (inputs : List (Option Note)),
      (runRound st period inputs).completed = true →
      (st.curr_detection_count + matchCount st.target_note
          (inputs.take
            (inputs.length - (runRound st period inputs).rest.length)) =
        st.needed_detection_count) ∧
      (∀ j, 1 ≤ j →
        j < inputs.length - (runRound st period inputs).rest.length →
        st.curr_detection_count +
            matchCount st.target_note (inputs.take j) ≠
          st.needed_detection_count) ∧
      (runRound st period inputs).final.curr_detection_count =
        st.needed_detection_count) ∧
    (∀ (p : Note × FretLoc) (picks : List (Note × FretLoc))
        (inputs : List (Option Note)),
      gameRun needed period (p :: picks) inputs =
        Cast.start ⟨p.1, p.2, needed, 0⟩ ::
          (((runRound ⟨p.1, p.2, needed, 0⟩ period inputs).casts.map
              Cast.progress) ++
            (if (runRound ⟨p.1, p.2, needed, 0⟩ period inputs).completed
              then gameRun needed period picks
                (runRound ⟨p.1, p.2, needed, 0⟩ period inputs).rest
              else [])) ∧
      countStarts (gameRun needed period (p :: picks) inputs) =
        1 + (if (runRound ⟨p.1, p.2, needed, 0⟩ period inputs).completed
          then countStarts (gameRun needed period picks
            (runRound ⟨p.1, p.2, needed, 0⟩ period inputs).rest)
          else 0)) := by
  refine ⟨?_, ?_, ?_, ?_, ?_, ?_⟩
  · intro st o nm f
    have hinc : detectionIncrement st.target_note (some ⟨o, nm, f⟩) =
        (if o = st.target_note.octave ∧ nm = st.target_note.name
          then 1 else 0) := by
      simp only [detectionIncrement, noteEq]
      by_cases h1 : o = st.target_note.octave
      · by_cases h2 : nm = st.target_note.name
        · simp [beq_iff_eq, h1, h2]
        · simp [beq_iff_eq, h1, h2]
      · simp [beq_iff_eq, h1]
    constructor
    · constructor
      · intro hx
        by_contra hcon
        rw [stepState_curr, hinc, if_neg hcon] at hx
        omega
      · intro hx
        rw [stepState_curr, hinc, if_pos hx]
    · constructor
      · intro hx
        intro hcon
        rw [stepState_curr, hinc, if_pos hcon] at hx
        omega
      · intro hx
        rw [stepState_curr, hinc, if_neg hx]
        omega
  · intro st o nm f₁ f₂
    unfold stepState
    simp only [detectionIncrement, noteEq]
  · intro st
    unfold stepState
    simp [detectionIncrement]
  · intro st inputs
    exact runRound_completed_iff period inputs st
  · intro st inputs hc
    obtain ⟨_, _, h3, h4, h5⟩ := runRound_consumed period inputs st hc
    exact ⟨h3, h4, h5⟩
  · intro p picks inputs
    refine ⟨rfl, ?_⟩
    rw [gameRun]
    rw [countStarts, List.countP_cons]
    simp only [List.countP_append]
    have hmap : List.countP
        (fun c => match c with
          | .start _ => true | .progress _ => false)
        ((runRound ⟨p.1, p.2, needed, 0⟩ period inputs).casts.map
          Cast.progress) = 0 := by
      rw [List.countP_map]
      simp [Function.comp]
    rw [hmap]
    by_cases hcomp : (runRound ⟨p.1, p.2, needed, 0⟩ period inputs).completed
    · rw [if_pos hcomp, if_pos hcomp]
      simp [countStarts]
      omega
    · rw [if_neg hcomp, if_neg hcomp]
      simp [countStarts]

/-- C1, witness: the increment characterization at a concrete state and
note (match despite a different frequency), and round completion on a
stream whose second element matches the target. -/
theorem game_c1_detection_match_witness :
    ((stepState ⟨⟨4, NoteName.A, 440⟩, ⟨1, 0⟩, 1, 0⟩
        (some ⟨4, NoteName.A, 0⟩)).curr_detection_count = 0 + 1) ∧
    (runRound ⟨⟨4, NoteName.A, 440⟩, ⟨1, 0⟩, 1, 0⟩ 1
        [some ⟨5, NoteName.B, 2⟩, some ⟨4, NoteName.A, 3⟩]).completed =
      true := by
  constructor
  · exact ((game_c1_detection_match 1 1).1
      ⟨⟨4, NoteName.A, 440⟩, ⟨1, 0⟩, 1, 0⟩ 4 NoteName.A 0).1.mpr
      (by constructor <;> rfl)
  · exact ((game_c1_detection_match 1 1).2.2.2.1
      ⟨⟨4, NoteName.A, 440⟩, ⟨1, 0⟩, 1, 0⟩
      [some ⟨5, NoteName.B, 2⟩, some ⟨4, NoteName.A, 3⟩]).mpr
      ⟨2, by omega, by simp, by decide⟩

/-- Rust `(channel..data.len()).step_by(n_channels)` sample extraction
(`app.rs`, `read_channel_buffered`): after dropping the first `channel`
samples, take every `step`-th element.  `step_by` yields an element and
then advances `step`; the fuel (started at the list length, which bounds
the number of yields) makes the recursion structural. -/
def everyNth : ℕ → List ℚ → ℕ → List ℚ
  | 0, _, _ => []
  | _, [], _ => []
  | fuel + 1, x :: xs, step => x :: everyNth fuel (xs.drop (step - 1)) step

/-- The samples of the listened channel inside one interleaved data
block (`app.rs`). -/
def channelSamples (data : List ℚ) (n_channels channel : ℕ) : List ℚ :=
  everyNth data.length (data.drop channel) n_channels

/-- `buffer.pop_front()` executed `n` times (`app.rs`). -/
def popFrontN : ℕ → List ℚ → List ℚ
  | 0, b => b
  | _ + 1, [] => []
  | n + 1, _ :: xs => popFrontN n xs

/-- `fn read_channel_buffered` (`app.rs`): extract the listened channel's
new samples; if at least as many as the buffer holds, clear it, else pop
that many from the front; then push every new sample at the back. -/
def read_channel_buffered (data : List ℚ) (n_channels channel : ℕ)
    (buffer : List ℚ) : List ℚ :=
  (channelSamples data n_channels channel).foldl (fun b x => b ++ [x])
    (if buffer.length ≤ (channelSamples data n_channels channel).length
      then []
      else popFrontN (channelSamples data n_channels channel).length buffer)

lemma popFrontN_eq_drop : ∀ (n : ℕ) (l : List ℚ),
    popFrontN n l = l.drop n := by
  intro n
  induction n with
  | zero => intro l; rfl
  | succ k ih =>
    intro l
    cases l with
    | nil => rfl
    | cons x xs => exact ih xs

lemma foldl_push_eq_append : ∀ (vals acc : List ℚ),
    vals.foldl (fun b x => b ++ [x]) acc = acc ++ vals := by
  intro vals
  induction vals with
  | nil => intro acc; simp
  | cons v vs ih =>
    intro acc
    rw [List.foldl_cons, ih]
    simp

/-- C9.  For every call delivering `N` new samples for the listened
channel: when `N` is at least the buffer's current length the buffer is
fully replaced by exactly the `N` new samples; otherwise the `N` oldest
elements are evicted from the front, the new samples are appended at the
back in order, and the total length is unchanged. -/
theorem app_c9_read_channel_buffered (data : List ℚ)
    (n_channels channel : ℕ) (buffer : List ℚ) (_hch : 1 ≤ n_channels) :
    (buffer.length ≤ (channelSamples data n_channels channel).length →
      read_channel_buffered data n_channels channel buffer =
        channelSamples data n_channels channel) ∧
    ((channelSamples data n_channels channel).length < buffer.length →
      read_channel_buffered data n_channels channel buffer =
        buffer.drop (channelSamples data n_channels channel).length ++
          channelSamples data n_channels channel ∧
      (read_channel_buffered data n_channels channel buffer).length =
        buffer.length) := by
  constructor
  · intro h
    rw [read_channel_buffered, if_pos h, foldl_push_eq_append]
    rfl
  · intro h
    have he : read_channel_buffered data n_channels channel buffer =
        buffer.drop (channelSamples data n_channels channel).length ++
          channelSamples data n_channels channel := by
      rw [read_channel_buffered, if_neg (by omega), foldl_push_eq_append,
        popFrontN_eq_drop]
    refine ⟨he, ?_⟩
    rw [he]
    simp
    omega

/-- C9, witness: a stereo block `[1,2,3,4,5,6]` on channel 0 delivers
samples `[1,3,5]` into the four-element buffer `[10,20,30,40]`: the three
oldest are evicted and the result is `[40,1,3,5]`, same length. -/
theorem app_c9_read_channel_buffered_witness :
    (1 ≤ 2) ∧
    (channelSamples [1, 2, 3, 4, 5, 6] 2 0).length <
      ([10, 20, 30, 40] : List ℚ).length ∧
    read_channel_buffered [1, 2, 3, 4, 5, 6] 2 0 [10, 20, 30, 40] =
      [40, 1, 3, 5] := by
  refine ⟨by omega, by decide, ?_⟩
  have h := (app_c9_read_channel_buffered [1, 2, 3, 4, 5, 6] 2 0
    [10, 20, 30, 40] (by omega)).2 (by decide)
  rw [h.1]
  decide

/-- The `statrs` median of an `f64` slice, used by `find_note`
(`audio_analysis/algorithm.rs`): the middle order statistic of the sorted
data, the mean of the two middle values for even length (`NaN` on empty
data, modelled as 0 — `find_note` is never called on an empty
spectrum). -/
def median (l : List ℚ) : ℚ :=
  if l.length = 0 then 0
  else if l.length % 2 = 1 then
    (List.insertionSort (fun a b : ℚ => a ≤ b) l).getD (l.length / 2) 0
  else
    ((List.insertionSort (fun a b : ℚ => a ≤ b) l).getD
        (l.length / 2 - 1) 0 +
      (List.insertionSort (fun a b : ℚ => a ≤ b) l).getD (l.length / 2) 0)
      / 2

/-- `peaks.sort_unstable_by` on the peak magnitude, ascending
(`find_note`, `audio_analysis/algorithm.rs`), modelled by insertion sort
on the same key. -/
def sortPeaksByValue (peaks : List Peak) : List Peak :=
  List.insertionSort (fun a b : Peak => a.value ≤ b.value) peaks

/-- The `top_notes` of `find_note` (`audio_analysis/algorithm.rs`):
detected peaks (threshold `500 × median`, min distance 10) sorted by
magnitude ascending, reversed, first 5 taken, each mapped to the nearest
target of its bin frequency `idx × delta_f`.  `get_closest` is total for
the nonempty sets `TargetNotes` admits; `filterMap` discards the
impossible `none`. -/
def top_notes (freq_spectrum : List ℚ) (delta_f : ℚ)
    (target_notes : List Note) : List Note :=
  ((sortPeaksByValue (find_peaks freq_spectrum
      (some (500 * median freq_spectrum)) (some 10))).reverse.take 5).filterMap
    (fun p => get_closest target_notes ((p.idx : ℚ) * delta_f))

/-- The contents of `most_common`'s counting `HashMap`
(`audio_analysis/algorithm.rs`) after the counting loop, listed in
first-insertion order: each distinct name with its final count. -/
def countsList (names : List NoteName) : List (NoteName × ℕ) :=
  names.foldl (fun acc nm =>
    if acc.any (fun kv => decide (kv.1 = nm)) then
      acc.map (fun kv => if kv.1 = nm then (kv.1, kv.2 + 1) else kv)
    else acc ++ [(nm, 1)]) []

/-- Rust `Iterator::max_by_key` on the count (`most_common`): scan the
iteration order, keeping the later element on ties, i.e. the last
maximal element. -/
def max_by_key (σ : List (NoteName × ℕ)) : Option (NoteName × ℕ) :=
  σ.foldl (fun acc kv =>
    match acc with
    | none => some kv
    | some best => if best.2 ≤ kv.2 then some kv else some best) none

/-- `fn most_common` (`audio_analysis/algorithm.rs`), parameterized by
the iteration order `σ` of its counting hash map: `std::collections::
HashMap` iteration order is unspecified (randomized hasher), so `σ`
ranges over the permutations of the map's contents
`countsList names`. -/
def most_commonOrd (σ : List (NoteName × ℕ)) : Option NoteName :=
  (max_by_key σ).map (fun kv => kv.1)

/-- Rust `Iterator::min_by` on the frequency (`find_note`): first minimal
element. -/
def min_by_freq (l : List Note) : Option Note :=
  l.foldl (fun acc n =>
    match acc with
    | none => some n
    | some b => if n.frequency < b.frequency then some n else some b) none

/-- `fn find_note` (`audio_analysis/algorithm.rs`), parameterized by the
iteration order `σ` of the counting hash map (see `most_commonOrd`):
majority vote over the top notes' names, then the lowest-frequency top
note bearing the winning name. -/
def find_noteOrd (freq_spectrum : List ℚ) (delta_f : ℚ)
    (target_notes : List Note) (σ : List (NoteName × ℕ)) : Option Note :=
  match most_commonOrd σ with
  | some notename =>
    min_by_freq ((top_notes freq_spectrum delta_f target_notes).filter
      (fun x => decide (x.name = notename)))
  | none => none

/-- C4, counterexample.  An 11-bin spectrum with two equally voted
candidate pitch classes: the counting map holds `[(B,1),(A,1)]`, and two
valid iteration orders of those same contents make `find_note` return
different notes — so the tie is not resolved by the insertion order of
the counting structure (a `std` `HashMap` with randomized, unspecified
iteration order); the code's own test `most_common_equal_counts` accepts
any tied winner. -/
theorem audio_c4_find_note_counterexample :
    countsList ((top_notes [5, 0, 0, 0, 0, 0, 0, 0, 0, 0, 7] 1
        [⟨4, NoteName.A, 0⟩, ⟨4, NoteName.B, 10⟩]).map Note.name) =
      [(NoteName.B, 1), (NoteName.A, 1)] ∧
    List.Perm [(NoteName.B, 1), (NoteName.A, 1)]
      [(NoteName.A, 1), (NoteName.B, 1)] ∧
    find_noteOrd [5, 0, 0, 0, 0, 0, 0, 0, 0, 0, 7] 1
        [⟨4, NoteName.A, 0⟩, ⟨4, NoteName.B, 10⟩]
        [(NoteName.B, 1), (NoteName.A, 1)] = some ⟨4, NoteName.A, 0⟩ ∧
    find_noteOrd [5, 0, 0, 0, 0, 0, 0, 0, 0, 0, 7] 1
        [⟨4, NoteName.A, 0⟩, ⟨4, NoteName.B, 10⟩]
        [(NoteName.A, 1), (NoteName.B, 1)] = some ⟨4, NoteName.B, 10⟩ ∧
    (some (⟨4, NoteName.A, 0⟩ : Note) ≠ some ⟨4, NoteName.B, 10⟩) := by
  have hmed : median [5, 0, 0, 0, 0, 0, 0, 0, 0, 0, 7] = 0 := by
    norm_num [median, List.insertionSort, List.orderedInsert]
  have hpk : find_peaks [5, 0, 0, 0, 0, 0, 0, 0, 0, 0, 7] (some (500 * 0))
      (some 10) = [⟨0, 5⟩, ⟨10, 7⟩] := by
    norm_num [find_peaks, fpLoop]
  have hs : (sortPeaksByValue [⟨0, 5⟩, ⟨10, 7⟩]).reverse.take 5 =
      [⟨10, 7⟩, ⟨0, 5⟩] := by decide
  have hga : get_closest [⟨4, NoteName.A, 0⟩, ⟨4, NoteName.B, 10⟩]
      ((10 : ℕ) * (1 : ℚ)) = some ⟨4, NoteName.B, 10⟩ := by
    norm_num [get_closest, binary_search_by, bsLoop, defaultNote]
  have hgb : get_closest [⟨4, NoteName.A, 0⟩, ⟨4, NoteName.B, 10⟩]
      ((0 : ℕ) * (1 : ℚ)) = some ⟨4, NoteName.A, 0⟩ := by
    norm_num [get_closest, binary_search_by, bsLoop, defaultNote]
  have htop : top_notes [5, 0, 0, 0, 0, 0, 0, 0, 0, 0, 7] 1
      [⟨4, NoteName.A, 0⟩, ⟨4, NoteName.B, 10⟩] =
      [⟨4, NoteName.B, 10⟩, ⟨4, NoteName.A, 0⟩] := by
    rw [top_notes, hmed, hpk, hs]
    rw [List.filterMap_cons, List.filterMap_cons, List.filterMap_nil]
    rw [show ((⟨10, 7⟩ : Peak).idx : ℚ) * 1 = (10 : ℕ) * (1 : ℚ) by
        norm_num,
      show ((⟨0, 5⟩ : Peak).idx : ℚ) * 1 = (0 : ℕ) * (1 : ℚ) by norm_num,
      hga, hgb]
  refine ⟨?_, by decide, ?_, ?_, by decide⟩
  · rw [htop]
    decide
  · rw [find_noteOrd, htop]
    decide
  · rw [find_noteOrd, htop]
    decide

lemma countsLoop_spec :
    ∀ (names : List NoteName) (acc : List (NoteName × ℕ))
      (processed : List NoteName),
      (acc.map Prod.fst).Nodup →
      (∀ kv ∈ acc, kv.2 = processed.count kv.1) →
      (∀ nm : NoteName, nm ∈ processed ↔ nm ∈ acc.map Prod.fst) →
      (((names.foldl (fun acc nm =>
          if acc.any (fun kv => decide (kv.1 = nm)) then
            acc.map (fun kv => if kv.1 = nm then (kv.1, kv.2 + 1) else kv)
          else acc ++ [(nm, 1)]) acc).map Prod.fst).Nodup ∧
        (∀ kv ∈ names.foldl (fun acc nm =>
          if acc.any (fun kv => decide (kv.1 = nm)) then
            acc.map (fun kv => if kv.1 = nm then (kv.1, kv.2 + 1) else kv)
          else acc ++ [(nm, 1)]) acc,
          kv.2 = (processed ++ names).count kv.1) ∧
        (∀ nm : NoteName, nm ∈ processed ++ names ↔
          nm ∈ (names.foldl (fun acc nm =>
            if acc.any (fun kv => decide (kv.1 = nm)) then
              acc.map (fun kv => if kv.1 = nm then (kv.1, kv.2 + 1) else kv)
            else acc ++ [(nm, 1)]) acc).map Prod.fst)) := by
  intro names
  induction names with
  | nil =>
    intro acc processed h1 h2 h3
    refine ⟨h1, ?_, ?_⟩
    · intro kv hkv
      simpa using h2 kv hkv
    · intro nm
      simpa using h3 nm
  | cons nm names ih =>
    intro acc processed h1 h2 h3
    rw [List.foldl_cons]
    by_cases hmem : acc.any (fun kv => decide (kv.1 = nm)) = true
    · rw [if_pos hmem]
      have hkeys : (acc.map (fun kv =>
          if kv.1 = nm then (kv.1, kv.2 + 1) else kv)).map Prod.fst =
          acc.map Prod.fst := by
        rw [List.map_map]
        apply List.map_congr_left
        intro kv _
        show (if kv.1 = nm then (kv.1, kv.2 + 1) else kv).1 = kv.1
        split <;> rfl
      have hin : nm ∈ acc.map Prod.fst := by
        obtain ⟨kv, hkv, hp⟩ := List.any_eq_true.mp hmem
        rw [List.mem_map]
        exact ⟨kv, hkv, of_decide_eq_true hp⟩
      have h := ih (acc.map (fun kv =>
          if kv.1 = nm then (kv.1, kv.2 + 1) else kv)) (processed ++ [nm])
        (by rw [hkeys]; exact h1)
        (by
          intro kv hkv
          rw [List.mem_map] at hkv
          obtain ⟨kv0, hkv0, he⟩ := hkv
          rw [List.count_append]
          by_cases hk : kv0.1 = nm
          · rw [if_pos hk] at he
            subst he
            show kv0.2 + 1 = processed.count kv0.1 + List.count kv0.1 [nm]
            rw [← h2 kv0 hkv0]
            have : List.count kv0.1 [nm] = 1 := by
              rw [hk]
              simp
            omega
          · rw [if_neg hk] at he
            subst he
            rw [← h2 kv0 hkv0]
            have : List.count kv0.1 [nm] = 0 := by
              simp [List.count_singleton]
              exact fun hc => hk (hc ▸ rfl)
            omega)
        (by
          intro x
          rw [hkeys, List.mem_append]
          constructor
          · intro hx
            rcases hx with hx | hx
            · exact (h3 x).mp hx
            · have : x = nm := by simpa using hx
              subst this
              exact hin
          · intro hx
            exact Or.inl ((h3 x).mpr hx))
      refine ⟨h.1, ?_, ?_⟩
      · intro kv hkv
        have := h.2.1 kv hkv
        rwa [List.append_assoc] at this
      · intro x
        have := h.2.2 x
        rwa [List.append_assoc] at this
    · rw [if_neg hmem]
      have hnin : nm ∉ acc.map Prod.fst := by
        intro hc
        apply hmem
        rw [List.mem_map] at hc
        obtain ⟨kv, hkv, he⟩ := hc
        exact List.any_eq_true.mpr ⟨kv, hkv, decide_eq_true he⟩
      have h := ih (acc ++ [(nm, 1)]) (processed ++ [nm])
        (by
          rw [List.map_append]
          simp only [List.map_cons, List.map_nil]
          rw [List.nodup_append]
          exact ⟨h1, List.nodup_singleton _, by
            intro x hx hy
            have : x = nm := by simpa using hy
            subst this
            exact hnin hx⟩)
        (by
          intro kv hkv
          rw [List.count_append]
          rcases List.mem_append.mp hkv with hkv | hkv
          · rw [← h2 kv hkv]
            have hk : kv.1 ≠ nm := by
              intro hc
              exact hnin (hc ▸ List.mem_map.mpr ⟨kv, hkv, rfl⟩)
            have : List.count kv.1 [nm] = 0 := by
              simp [List.count_singleton]
              exact fun hc => hk (hc ▸ rfl)
            omega
          · have : kv = (nm, 1) := by simpa using hkv
            subst this
            show 1 = processed.count nm + List.count nm [nm]
            have hc0 : processed.count nm = 0 := by
              rw [List.count_eq_zero]
              intro hc
              exact hnin ((h3 nm).mp hc)
            simp [hc0])
        (by
          intro x
          rw [List.map_append]
          simp only [List.map_cons, List.map_nil]
          rw [List.mem_append, List.mem_append]
          constructor
          · intro hx
            rcases hx with hx | hx
            · exact Or.inl ((h3 x).mp hx)
            · exact Or.inr hx
          · intro hx
            rcases hx with hx | hx
            · exact Or.inl ((h3 x).mpr hx)
            · exact Or.inr hx)
      refine ⟨h.1, ?_, ?_⟩
      · intro kv hkv
        have := h.2.1 kv hkv
        rwa [List.append_assoc] at this
      · intro x
        have := h.2.2 x
        rwa [List.append_assoc] at this

lemma countsList_spec (names : List NoteName) :
    ((countsList names).map Prod.fst).Nodup ∧
    (∀ kv ∈ countsList names, kv.2 = names.count kv.1) ∧
    (∀ nm : NoteName, nm ∈ names ↔
      nm ∈ (countsList names).map Prod.fst) := by
  have h := countsLoop_spec names [] []
    (by simp) (by intro kv hkv; simp at hkv) (by simp)
  rw [countsList]
  refine ⟨h.1, ?_, ?_⟩
  · intro kv hkv
    simpa using h.2.1 kv hkv
  · intro nm
    simpa using h.2.2 nm

lemma max_by_key_loop (σ : List (NoteName × ℕ)) :
    ∀ (b : NoteName × ℕ),
      ∃ kv, σ.foldl (fun acc kv =>
          match acc with
          | none => some kv
          | some best => if best.2 ≤ kv.2 then some kv else some best)
        (some b) = some kv ∧
        (kv ∈ σ ∨ kv = b) ∧ b.2 ≤ kv.2 ∧ ∀ kv' ∈ σ, kv'.2 ≤ kv.2 := by
  induction σ with
  | nil =>
    intro b
    exact ⟨b, rfl, Or.inr rfl, le_refl _, by intro kv' h; simp at h⟩
  | cons a σ ih =>
    intro b
    rw [List.foldl_cons]
    by_cases h : b.2 ≤ a.2
    · simp only [if_pos h]
      obtain ⟨kv, he, hm, hb, hall⟩ := ih a
      refine ⟨kv, he, ?_, le_trans h hb, ?_⟩
      · rcases hm with hm | hm
        · exact Or.inl (List.mem_cons_of_mem a hm)
        · exact Or.inl (hm ▸ List.mem_cons_self a σ)
      · intro kv' hkv'
        rcases List.mem_cons.mp hkv' with hkv' | hkv'
        · subst hkv'
          exact hb
        · exact hall kv' hkv'
    · simp only [if_neg h]
      obtain ⟨kv, he, hm, hb, hall⟩ := ih b
      refine ⟨kv, he, ?_, hb, ?_⟩
      · rcases hm with hm | hm
        · exact Or.inl (List.mem_cons_of_mem a hm)
        · exact Or.inr hm
      · intro kv' hkv'
        rcases List.mem_cons.mp hkv' with hkv' | hkv'
        · subst hkv'
          omega
        · exact hall kv' hkv'

lemma max_by_key_spec (σ : List (NoteName × ℕ)) (hne : σ ≠ []) :
    ∃ kv, max_by_key σ = some kv ∧ kv ∈ σ ∧ ∀ kv' ∈ σ, kv'.2 ≤ kv.2 := by
  cases σ with
  | nil => exact absurd rfl hne
  | cons a σ =>
    obtain ⟨kv, he, hm, hb, hall⟩ := max_by_key_loop σ a
    refine ⟨kv, ?_, ?_, ?_⟩
    · rw [max_by_key, List.foldl_cons]
      exact he
    · rcases hm with hm | hm
      · exact List.mem_cons_of_mem a hm
      · exact hm ▸ List.mem_cons_self a σ
    · intro kv' hkv'
      rcases List.mem_cons.mp hkv' with hkv' | hkv'
      · subst hkv'
        exact hb
      · exact hall kv' hkv'

lemma min_by_freq_loop (l : List Note) :
    ∀ (b : Note),
      ∃ n, l.foldl (fun acc n =>
          match acc with
          | none => some n
          | some b => if n.frequency < b.frequency then some n else some b)
        (some b) = some n ∧
        (n ∈ l ∨ n = b) ∧ n.frequency ≤ b.frequency ∧
        ∀ m ∈ l, n.frequency ≤ m.frequency := by
  induction l with
  | nil =>
    intro b
    exact ⟨b, rfl, Or.inr rfl, le_refl _, by intro m h; simp at h⟩
  | cons a l ih =>
    intro b
    rw [List.foldl_cons]
    by_cases h : a.frequency < b.frequency
    · simp only [if_pos h]
      obtain ⟨n, he, hm, hb, hall⟩ := ih a
      refine ⟨n, he, ?_, le_trans hb (le_of_lt h), ?_⟩
      · rcases hm with hm | hm
        · exact Or.inl (List.mem_cons_of_mem a hm)
        · exact Or.inl (hm ▸ List.mem_cons_self a l)
      · intro m hm'
        rcases List.mem_cons.mp hm' with hm' | hm'
        · subst hm'
          exact hb
        · exact hall m hm'
    · simp only [if_neg h]
      obtain ⟨n, he, hm, hb, hall⟩ := ih b
      refine ⟨n, he, ?_, hb, ?_⟩
      · rcases hm with hm | hm
        · exact Or.inl (List.mem_cons_of_mem a hm)
        · exact Or.inr hm
      · intro m hm'
        rcases List.mem_cons.mp hm' with hm' | hm'
        · subst hm'
          exact le_trans hb (not_lt.mp h)
        · exact hall m hm'

lemma min_by_freq_spec (l : List Note) (hne : l ≠ []) :
    ∃ n, min_by_freq l = some n ∧ n ∈ l ∧
      ∀ m ∈ l, n.frequency ≤ m.frequency := by
  cases l with
  | nil => exact absurd rfl hne
  | cons a l =>
    obtain ⟨n, he, hm, hb, hall⟩ := min_by_freq_loop l a
    refine ⟨n, ?_, ?_, ?_⟩
    · rw [min_by_freq, List.foldl_cons]
      exact he
    · rcases hm with hm | hm
      · exact List.mem_cons_of_mem a hm
      · exact hm ▸ List.mem_cons_self a l
    · intro m hm'
      rcases List.mem_cons.mp hm' with hm' | hm'
      · subst hm'
        exact hb
      · exact hall m hm'

lemma bsLoop_bounds (f : ℕ → ℚ) (freq : ℚ) :
    ∀ fuel left right, left ≤ right →
      (∃ m, bsLoop f freq fuel left right = .found m ∧ left ≤ m ∧
        m < right) ∨
      (∃ idx, bsLoop f freq fuel left right = .notFound idx ∧
        left ≤ idx ∧ idx ≤ right) := by
  intro fuel
  induction fuel with
  | zero =>
    intro left right hlr
    exact Or.inr ⟨left, rfl, le_refl _, hlr⟩
  | succ k ih =>
    intro left right hlr
    rw [bsLoop]
    by_cases hlt : left < right
    · rw [if_pos hlt]
      set mid := left + (right - left) / 2 with hmid
      have hmlt : mid < right := by omega
      have hmge : left ≤ mid := by omega
      by_cases h1 : f mid < freq
      · rw [if_pos h1]
        rcases ih (mid + 1) right (by omega) with
          ⟨m, hm, hb1, hb2⟩ | ⟨idx, hi1, hi2, hi3⟩
        · exact Or.inl ⟨m, hm, by omega, hb2⟩
        · exact Or.inr ⟨idx, hi1, by omega, hi3⟩
      · rw [if_neg h1]
        by_cases h2 : freq < f mid
        · rw [if_pos h2]
          rcases ih left mid hmge with
            ⟨m, hm, hb1, hb2⟩ | ⟨idx, hi1, hi2, hi3⟩
          · exact Or.inl ⟨m, hm, hb1, by omega⟩
          · exact Or.inr ⟨idx, hi1, hi2, by omega⟩
        · rw [if_neg h2]
          exact Or.inl ⟨mid, rfl, hmge, hmlt⟩
    · rw [if_neg hlt]
      exact Or.inr ⟨left, rfl, le_refl _, hlr⟩

lemma get_closest_mem (arr : List Note) (freq : ℚ) (note : Note)
    (h : get_closest arr freq = some note) : note ∈ arr := by
  rcases bsLoop_bounds (fun i => (arr.getD i defaultNote).frequency) freq
    arr.length 0 arr.length (by omega) with
    ⟨m, hm, _, hmlt⟩ | ⟨idx, hidx, _, hile⟩
  · unfold get_closest binary_search_by at h
    simp only [hm] at h
    exact List.getElem?_mem h
  · unfold get_closest binary_search_by at h
    simp only [hidx] at h
    by_cases h0 : idx = 0
    · subst h0
      rw [if_pos rfl] at h
      exact List.getElem?_mem h
    · rw [if_neg h0] at h
      by_cases hn : idx = arr.length
      · rw [if_pos hn] at h
        exact List.getElem?_mem h
      · rw [if_neg hn] at h
        have hlt : idx < arr.length := by omega
        have hlt1 : idx - 1 < arr.length := by omega
        split at h
        · have : note = arr.getD (idx - 1) defaultNote :=
            (Option.some.inj h).symm
          subst this
          rw [List.getD_eq_getElem arr _ hlt1]
          exact List.getElem_mem _
        · have : note = arr.getD idx defaultNote :=
            (Option.some.inj h).symm
          subst this
          rw [List.getD_eq_getElem arr _ hlt]
          exact List.getElem_mem _

lemma sorted_desc_take_drop (l : List Peak)
    (hs : List.Pairwise (fun p q : Peak => q.value ≤ p.value) l) (k : ℕ) :
    ∀ p ∈ l.take k, ∀ q ∈ l.drop k, q.value ≤ p.value := by
  have h := hs
  rw [← List.take_append_drop k l, List.pairwise_append] at h
  exact h.2.2

/-- C4, amended.  `find_note` takes the top-5 detected peaks by
magnitude (each retained peak dominates each dropped one), maps each to a
note of the target set, and majority-votes over the candidates' pitch
class names: for EVERY iteration order of the counting hash map the
winner carries a maximal vote count, a note is returned exactly when a
candidate exists, and the returned note is a candidate of the winning
pitch class with the lowest frequency among that class's candidates.
Ties between equally counted names are broken by the hash map's
unspecified iteration order (the last maximal entry wins), not
necessarily by insertion order. -/
theorem audio_c4_find_note_amended (freq_spectrum : List ℚ) (delta_f : ℚ)
    (target_notes : List Note) (σ : List (NoteName × ℕ))
    (hσ : σ.Perm (countsList
      ((top_notes freq_spectrum delta_f target_notes).map Note.name))) :
    (∀ p ∈ (sortPeaksByValue (find_peaks freq_spectrum
        (some (500 * median freq_spectrum)) (some 10))).reverse.take 5,
      ∀ q ∈ (sortPeaksByValue (find_peaks freq_spectrum
        (some (500 * median freq_spectrum)) (some 10))).reverse.drop 5,
      q.value ≤ p.value) ∧
    (∀ m ∈ top_notes freq_spectrum delta_f target_notes,
      m ∈ target_notes) ∧
    (∀ w, most_commonOrd σ = some w →
      w ∈ (top_notes freq_spectrum delta_f target_notes).map Note.name ∧
      ∀ nm : NoteName,
        ((top_notes freq_spectrum delta_f target_notes).map
          Note.name).count nm ≤
        ((top_notes freq_spectrum delta_f target_notes).map
          Note.name).count w) ∧
    ((∃ note, find_noteOrd freq_spectrum delta_f target_notes σ =
        some note) ↔
      top_notes freq_spectrum delta_f target_notes ≠ []) ∧
    (∀ note,
      find_noteOrd freq_spectrum delta_f target_notes σ = some note →
      note ∈ top_notes freq_spectrum delta_f target_notes ∧
      (∀ nm : NoteName,
        ((top_notes freq_spectrum delta_f target_notes).map
          Note.name).count nm ≤
        ((top_notes freq_spectrum delta_f target_notes).map
          Note.name).count note.name) ∧
      (∀ m ∈ top_notes freq_spectrum delta_f target_notes,
        m.name = note.name → note.frequency ≤ m.frequency)) := by
  set tops := top_notes freq_spectrum delta_f target_notes with htops
  set names := tops.map Note.name with hnames
  have hcs := countsList_spec names
  -- the vote winner has a maximal count, for every iteration order
  have hwinner : ∀ w, most_commonOrd σ = some w →
      w ∈ names ∧ ∀ nm : NoteName, names.count nm ≤ names.count w := by
    intro w hw
    rw [most_commonOrd] at hw
    obtain ⟨kv, hkv, hkvw⟩ := Option.map_eq_some'.mp hw
    have hσne : σ ≠ [] := by
      intro hc
      rw [hc] at hkv
      exact Option.noConfusion hkv
    obtain ⟨kv0, hkv0, hkv0m, hkv0max⟩ := max_by_key_spec σ hσne
    rw [hkv] at hkv0
    have hkve : kv = kv0 := Option.some.inj hkv0
    subst hkve
    have hkvc : kv ∈ countsList names := hσ.mem_iff.mp hkv0m
    have hwmem : w ∈ names := by
      rw [← hkvw]
      apply (hcs.2.2 kv.1).mpr
      exact List.mem_map.mpr ⟨kv, hkvc, rfl⟩
    refine ⟨hwmem, ?_⟩
    intro nm
    by_cases hnm : nm ∈ names
    · obtain ⟨kv2, hkv2c, hkv2e⟩ := List.mem_map.mp ((hcs.2.2 nm).mp hnm)
      have h1 : kv2.2 = names.count nm := hkv2e ▸ hcs.2.1 kv2 hkv2c
      have h2 : kv.2 = names.count w := hkvw ▸ hcs.2.1 kv hkvc
      have h3 : kv2.2 ≤ kv.2 := hkv0max kv2 (hσ.mem_iff.mpr hkv2c)
      omega
    · rw [List.count_eq_zero.mpr hnm]
      omega
  -- the candidate filter for the winning name is nonempty
  have hfilter : ∀ w, most_commonOrd σ = some w →
      tops.filter (fun x => decide (x.name = w)) ≠ [] := by
    intro w hw
    obtain ⟨hwmem, -⟩ := hwinner w hw
    obtain ⟨m, hm, hme⟩ := List.mem_map.mp hwmem
    intro hc
    have : m ∈ tops.filter (fun x => decide (x.name = w)) :=
      List.mem_filter.mpr ⟨hm, decide_eq_true hme⟩
    rw [hc] at this
    simp at this
  refine ⟨?_, ?_, hwinner, ?_, ?_⟩
  · -- top-K dominance
    haveI : IsTotal Peak (fun a b : Peak => a.value ≤ b.value) :=
      ⟨fun a b => le_total a.value b.value⟩
    haveI : IsTrans Peak (fun a b : Peak => a.value ≤ b.value) :=
      ⟨fun _ _ _ hab hbc => le_trans hab hbc⟩
    apply sorted_desc_take_drop
    rw [List.pairwise_reverse]
    exact List.sorted_insertionSort _ _
  · -- candidates come from the target set
    intro m hm
    rw [htops, top_notes] at hm
    obtain ⟨p, _, hp⟩ := List.mem_filterMap.mp hm
    exact get_closest_mem target_notes _ m hp
  · -- existence
    constructor
    · intro ⟨note, hnote⟩
      rw [find_noteOrd] at hnote
      cases hw : most_commonOrd σ with
      | none =>
        rw [hw] at hnote
        exact Option.noConfusion hnote
      | some w =>
        rw [hw] at hnote
        have hnote' : min_by_freq
            (tops.filter (fun x => decide (x.name = w))) = some note :=
          hnote
        have hfne : tops.filter (fun x => decide (x.name = w)) ≠ [] := by
          intro hc
          rw [hc] at hnote'
          exact Option.noConfusion hnote'
        obtain ⟨n0, hn0, hn0m, -⟩ := min_by_freq_spec _ hfne
        intro hc
        rw [hc] at hn0m
        simp at hn0m
    · intro hne
      have hnne : names ≠ [] := by
        rw [hnames]
        intro hc
        exact hne (List.map_eq_nil_iff.mp hc)
      have hcne : countsList names ≠ [] := by
        intro hc
        obtain ⟨nm0, hnm0⟩ := List.exists_mem_of_ne_nil names hnne
        have := (hcs.2.2 nm0).mp hnm0
        rw [hc] at this
        simp at this
      have hσne : σ ≠ [] := by
        intro hc
        rw [hc] at hσ
        exact hcne hσ.symm.eq_nil
      obtain ⟨kv0, hkv0, -, -⟩ := max_by_key_spec σ hσne
      have hw : most_commonOrd σ = some kv0.1 := by
        rw [most_commonOrd, hkv0]
        rfl
      obtain ⟨note, hnote, -, -⟩ :=
        min_by_freq_spec _ (hfilter kv0.1 hw)
      refine ⟨note, ?_⟩
      rw [find_noteOrd, hw]
      exact hnote
  · -- the returned note
    intro note hnote
    rw [find_noteOrd] at hnote
    cases hw : most_commonOrd σ with
    | none =>
      rw [hw] at hnote
      exact Option.noConfusion hnote
    | some w =>
      rw [hw] at hnote
      have hnote' : min_by_freq
          (tops.filter (fun x => decide (x.name = w))) = some note :=
        hnote
      obtain ⟨n0, hn0, hn0m, hn0min⟩ := min_by_freq_spec _ (hfilter w hw)
      rw [hnote'] at hn0
      have hne : note = n0 := Option.some.inj hn0
      subst hne
      have hnmem := List.mem_filter.mp hn0m
      have hname : note.name = w := of_decide_eq_true hnmem.2
      refine ⟨hnmem.1, ?_, ?_⟩
      · rw [hname]
        exact (hwinner w hw).2
      · intro m hm hmn
        exact hn0min m (List.mem_filter.mpr
          ⟨hm, decide_eq_true (hmn ▸ hname ▸ rfl)⟩)

/-- Witness for the amended C4 theorem: on the 11-bin spectrum of the
counterexample with iteration order `[(B,1),(A,1)]`, the admissibility
hypothesis holds and `find_note` returns a note exactly because the
candidate set is nonempty. -/
theorem audio_c4_find_note_amended_witness :
    List.Perm [(NoteName.B, 1), (NoteName.A, 1)]
      (countsList ((top_notes [5, 0, 0, 0, 0, 0, 0, 0, 0, 0, 7] 1
        [⟨4, NoteName.A, 0⟩, ⟨4, NoteName.B, 10⟩]).map Note.name)) ∧
    ((∃ note, find_noteOrd [5, 0, 0, 0, 0, 0, 0, 0, 0, 0, 7] 1
        [⟨4, NoteName.A, 0⟩, ⟨4, NoteName.B, 10⟩]
        [(NoteName.B, 1), (NoteName.A, 1)] = some note) ↔
      top_notes [5, 0, 0, 0, 0, 0, 0, 0, 0, 0, 7] 1
        [⟨4, NoteName.A, 0⟩, ⟨4, NoteName.B, 10⟩] ≠ []) := by
  have hmed : median [5, 0, 0, 0, 0, 0, 0, 0, 0, 0, 7] = 0 := by
    norm_num [median, List.insertionSort, List.orderedInsert]
  have hpk : find_peaks [5, 0, 0, 0, 0, 0, 0, 0, 0, 0, 7] (some (500 * 0))
      (some 10) = [⟨0, 5⟩, ⟨10, 7⟩] := by
    norm_num [find_peaks, fpLoop]
  have hs : (sortPeaksByValue [⟨0, 5⟩, ⟨10, 7⟩]).reverse.take 5 =
      [⟨10, 7⟩, ⟨0, 5⟩] := by decide
  have hga : get_closest [⟨4, NoteName.A, 0⟩, ⟨4, NoteName.B, 10⟩]
      ((10 : ℕ) * (1 : ℚ)) = some ⟨4, NoteName.B, 10⟩ := by
    norm_num [get_closest, binary_search_by, bsLoop, defaultNote]
  have hgb : get_closest [⟨4, NoteName.A, 0⟩, ⟨4, NoteName.B, 10⟩]
      ((0 : ℕ) * (1 : ℚ)) = some ⟨4, NoteName.A, 0⟩ := by
    norm_num [get_closest, binary_search_by, bsLoop, defaultNote]
  have htop : top_notes [5, 0, 0, 0, 0, 0, 0, 0, 0, 0, 7] 1
      [⟨4, NoteName.A, 0⟩, ⟨4, NoteName.B, 10⟩] =
      [⟨4, NoteName.B, 10⟩, ⟨4, NoteName.A, 0⟩] := by
    rw [top_notes, hmed, hpk, hs]
    rw [List.filterMap_cons, List.filterMap_cons, List.filterMap_nil]
    rw [show ((⟨10, 7⟩ : Peak).idx : ℚ) * 1 = (10 : ℕ) * (1 : ℚ) by
        norm_num,
      show ((⟨0, 5⟩ : Peak).idx : ℚ) * 1 = (0 : ℕ) * (1 : ℚ) by norm_num,
      hga, hgb]
  have hσ : List.Perm [(NoteName.B, 1), (NoteName.A, 1)]
      (countsList ((top_notes [5, 0, 0, 0, 0, 0, 0, 0, 0, 0, 7] 1
        [⟨4, NoteName.A, 0⟩, ⟨4, NoteName.B, 10⟩]).map Note.name)) := by
    rw [htop]
    decide
  exact ⟨hσ, (audio_c4_find_note_amended [5, 0, 0, 0, 0, 0, 0, 0, 0, 0, 7]
    1 [⟨4, NoteName.A, 0⟩, ⟨4, NoteName.B, 10⟩]
    [(NoteName.B, 1), (NoteName.A, 1)] hσ).2.2.2.1⟩

end LibreGuitar
